import Mathlib

/-!
Verification of the darklua rule-based AST rewrite engine (CavefulGames fork).

This file gives a shallow embedding, in Lean 4, of the rewrite rules under
`src/rules/` — `remove_continue.rs`, `remove_duplicated_keys.rs`,
`remove_generalized_iteration.rs`, `convert_bit32.rs` — together with the
rule-configuration contract and the deterministic runtime-variable naming
scheme, and proves (or refutes, by concrete evaluation) the specified
properties of those rules.

Parts of the repository that the rules depend on but that are not part of the
rule sources (the generic traversal engine `crate::process::DefaultVisitor`,
the constant evaluator `crate::process::Evaluator`, the
`RuntimeVariableBuilder` and `verify_no_rule_properties` helpers) are modelled
from the specification; each such definition carries a doc comment starting
with `Modelled from the spec:`.
-/

namespace RC

/- ===== Embedding of the AST fragment that `remove_continue.rs` operates on.

The darklua `Block` is an ordered statement list plus an optional terminal
last statement (`break` / `continue` / `return`).  The rule only inspects and
rewrites `If` (its condition branches), `Do`, the four loop statement kinds,
and last statements; every other statement kind is carried opaquely.  We
include an observable `emit` statement (modelling any opaque side-effecting
statement such as a function call) and boolean assignments (the shapes the
rule itself generates: `local v = false`, `v = true`), so that the embedded
trees are executable by the reference interpreter below.  Expressions are
restricted to the boolean fragment the rule generates and tests need:
literals, identifiers, and negation. -/

inductive Expr where
  | boolLit (b : Bool)
  | var (name : String)
  | notE (e : Expr)
deriving DecidableEq, Repr

inductive LastStat where
  | breakS
  | continueS
  | returnS
deriving DecidableEq, Repr

mutual

inductive Stat : Type where
  | emit (n : Nat)
  | localAssign (x : String) (e : Expr)
  | assign (x : String) (e : Expr)
  | doS (b : Block)
  | ifS (brs : Branches) (els : OptBlock)
  | whileS (c : Expr) (b : Block)
  | repeatS (b : Block) (c : Expr)
  | numericFor (count : Nat) (b : Block)

inductive Branches : Type where
  | nil
  | cons (c : Expr) (b : Block) (rest : Branches)

inductive OptBlock : Type where
  | noneB
  | someB (b : Block)

inductive Stats : Type where
  | nil
  | cons (s : Stat) (rest : Stats)

inductive Block : Type where
  | mk (stats : Stats) (last : Option LastStat)

end

/-- Names of the two generated sentinel variables of the `Processor` struct
(`break_variable_name`, `continue_variable_name`). -/
structure Names where
  brk : String
  cont : String
deriving DecidableEq, Repr

def addPair (p q : Nat × Nat) : Nat × Nat := (p.1 + q.1, p.2 + q.2)

/-- Count contributed by a block terminator: `(continue_count, break_count)`
(`count_continue_break`, first `if let` chain). -/
def countLast : Option LastStat → Nat × Nat
  | some .continueS => (1, 0)
  | some .breakS => (0, 1)
  | some .returnS => (0, 0)
  | none => (0, 0)

mutual

/-- Embeds `count_continue_break` (src/rules/remove_continue.rs:22-58):
count `continue` and `break` terminators reachable through nested `If`
condition branches and `Do` blocks.  Note the source iterates
`if_stmt.iter_branches()`, which covers condition branches only — `else`
blocks and nested loops are not descended into. -/
def count_continue_break : Block → Nat × Nat
  | .mk ss last => addPair (countLast last) (countSs ss)

def countSs : Stats → Nat × Nat
  | .nil => (0, 0)
  | .cons s r => addPair (countStat s) (countSs r)

def countStat : Stat → Nat × Nat
  | .emit _ => (0, 0)
  | .localAssign _ _ => (0, 0)
  | .assign _ _ => (0, 0)
  | .doS b => count_continue_break b
  | .ifS brs _ => countBr brs
  | .whileS _ _ => (0, 0)
  | .repeatS _ _ => (0, 0)
  | .numericFor _ _ => (0, 0)

def countBr : Branches → Nat × Nat
  | .nil => (0, 0)
  | .cons _ b r => addPair (count_continue_break b) (countBr r)

end

/-- Terminator rewrite of `continues_to_breaks`: a `continue` terminator
becomes `break`; everything else is untouched. -/
def ctbLast : Option LastStat → Option LastStat
  | some .continueS => some .breakS
  | o => o

mutual

/-- Embeds `continues_to_breaks` (src/rules/remove_continue.rs:60-79):
rewrite every `continue` terminator reachable through `If` condition
branches and `Do` blocks into `break` (no recursion into `else` blocks or
nested loops, mirroring the source). -/
def continues_to_breaks : Block → Block
  | .mk ss last => .mk (ctbSs ss) (ctbLast last)

def ctbSs : Stats → Stats
  | .nil => .nil
  | .cons s r => .cons (ctbStat s) (ctbSs r)

def ctbStat : Stat → Stat
  | .emit n => .emit n
  | .localAssign x e => .localAssign x e
  | .assign x e => .assign x e
  | .doS b => .doS (continues_to_breaks b)
  | .ifS brs els => .ifS (ctbBr brs) els
  | .whileS c b => .whileS c b
  | .repeatS b c => .repeatS b c
  | .numericFor k b => .numericFor k b

def ctbBr : Branches → Branches
  | .nil => .nil
  | .cons c b r => .cons c (continues_to_breaks b) (ctbBr r)

end

/-- Terminator handling of `continues_with_breaks_to_breaks`
(src/rules/remove_continue.rs:126-149): returns the statements appended by
`push_statement` (the sentinel assignment, when the direction requires one)
together with the new terminator.  `with_continue_statement = true` means the
sentinel marks "this was a real continue". -/
def transformLast (wc : Bool) (nm : Names) : Option LastStat → Stats × Option LastStat
  | some .continueS =>
    (if wc then .cons (.assign nm.cont (.boolLit true)) .nil else .nil, some .breakS)
  | some .breakS =>
    (if wc then .nil else .cons (.assign nm.brk (.boolLit true)) .nil, some .breakS)
  | some .returnS => (.nil, some .returnS)
  | none => (.nil, none)

def appendStats : Stats → Stats → Stats
  | .nil, t => t
  | .cons s r, t => .cons s (appendStats r t)

mutual

/-- Embeds `Processor::continues_with_breaks_to_breaks`
(src/rules/remove_continue.rs:125-169).  The source first rewrites the
terminator (possibly pushing a sentinel assignment after the existing
statements) and then iterates over all statements — including the appended
assignment, on which the `If`/`Do` match is a no-op.  Because the statement
transform is the identity on `assign` statements, iterating after appending
equals appending after iterating; the definition uses the latter form (the
theorem `cwbtb_append_eq` below checks the exchange). -/
def continues_with_breaks_to_breaks (wc : Bool) (nm : Names) : Block → Block
  | .mk ss last =>
    let p := transformLast wc nm last
    .mk (appendStats (cwbtbSs wc nm ss) p.1) p.2

def cwbtbSs (wc : Bool) (nm : Names) : Stats → Stats
  | .nil => .nil
  | .cons s r => .cons (cwbtbStat wc nm s) (cwbtbSs wc nm r)

def cwbtbStat (wc : Bool) (nm : Names) : Stat → Stat
  | .emit n => .emit n
  | .localAssign x e => .localAssign x e
  | .assign x e => .assign x e
  | .doS b => .doS (continues_with_breaks_to_breaks wc nm b)
  | .ifS brs els => .ifS (cwbtbBr wc nm brs) els
  | .whileS c b => .whileS c b
  | .repeatS b c => .repeatS b c
  | .numericFor k b => .numericFor k b

def cwbtbBr (wc : Bool) (nm : Names) : Branches → Branches
  | .nil => .nil
  | .cons c b r => .cons c (continues_with_breaks_to_breaks wc nm b) (cwbtbBr wc nm r)

end

/-- The sentinel wrapper built when both continues and breaks are present
(src/rules/remove_continue.rs:86-121): `local v = false`, the single-pass
`repeat <body> until true`, then the re-raising conditional
(`if not cv then break end` in the continue direction, `if bv then break
end` in the break direction). -/
def sentinelWrap (nm : Names) (wc : Bool) (b2 : Block) : Block :=
  .mk (.cons (.localAssign (if wc then nm.cont else nm.brk) (.boolLit false))
      (.cons (.repeatS b2 (.boolLit true))
      (.cons (.ifS (.cons (if wc then Expr.notE (.var nm.cont) else .var nm.brk)
                   (.mk .nil (some .breakS)) .nil) .noneB) .nil)))
    none

/-- The body rewrite of `Processor::process`
(src/rules/remove_continue.rs:82-123) as a function of the counts `c` of
the loop body and the body `bv` it is applied to: no reachable `continue` —
leave untouched; `continue` but no `break` — convert continues to breaks and
wrap in `repeat ... until true`; both — choose the sentinel direction by
`continue_count < break_count` and build the sentinel wrapper.  `process`
below instantiates `bv` with the body itself; the visitor instantiates `bv`
with the already-visited body. -/
def fusedBodyAux (nm : Names) (c : Nat × Nat) (bv : Block) : Block :=
  if 0 < c.1 then
    if 0 < c.2 then
      let wc : Bool := decide (c.1 < c.2)
      sentinelWrap nm wc (continues_with_breaks_to_breaks wc nm bv)
    else
      .mk (.cons (.repeatS (continues_to_breaks bv) (.boolLit true)) .nil) none
  else bv

/-- Embeds `Processor::process` (src/rules/remove_continue.rs:82-123),
applied to one loop body. -/
def process (nm : Names) (b : Block) : Block :=
  fusedBodyAux nm (count_continue_break b) b

mutual

/-- Modelled from the spec: `DefaultVisitor::visit_block`
(crate::process, not under src/) performs a pre-order, mutation-capable walk;
`NodeProcessor::process_statement` fires on each statement before the walk
descends into the (possibly mutated) children
(src/rules/remove_continue.rs:172-182 hooks the four loop kinds).  The
theorem `visit_process_eq` below proves that this definition satisfies the
visitor's defining pre-order equation
`visit (loop c b) = loop c (visit (process b))`. -/
def visitB (nm : Names) : Block → Block
  | .mk ss last => .mk (visitSs nm ss) last

def visitSs (nm : Names) : Stats → Stats
  | .nil => .nil
  | .cons s r => .cons (visitStat nm s) (visitSs nm r)

def visitStat (nm : Names) : Stat → Stat
  | .emit n => .emit n
  | .localAssign x e => .localAssign x e
  | .assign x e => .assign x e
  | .doS b => .doS (visitB nm b)
  | .ifS brs els => .ifS (visitBr nm brs) (visitOpt nm els)
  | .whileS c b => .whileS c (fusedBodyAux nm (count_continue_break b) (visitB nm b))
  | .repeatS b c => .repeatS (fusedBodyAux nm (count_continue_break b) (visitB nm b)) c
  | .numericFor k b => .numericFor k (fusedBodyAux nm (count_continue_break b) (visitB nm b))

def visitBr (nm : Names) : Branches → Branches
  | .nil => .nil
  | .cons c b r => .cons c (visitB nm b) (visitBr nm r)

def visitOpt (nm : Names) : OptBlock → OptBlock
  | .noneB => .noneB
  | .someB b => .someB (visitB nm b)

end

/-- The visit of one processed loop body. -/
def fusedBody (nm : Names) (b : Block) : Block :=
  fusedBodyAux nm (count_continue_break b) (visitB nm b)

/- ===== Reference interpreter (the "equivalence oracle" of the spec):
executes a block over a boolean variable store, producing the sequence of
observable side effects (`emit` values) and the exit cause. -/

inductive Exit where
  | normal
  | brk
  | cont
  | ret
deriving DecidableEq, Repr

abbrev Env := List (String × Bool)

def lookupVar (env : Env) (x : String) : Bool :=
  ((env.find? (fun p => p.1 = x)).map (fun p => p.2)).getD false

def setVar (env : Env) (x : String) (v : Bool) : Env :=
  if (env.find? (fun p => p.1 = x)).isSome then
    env.map (fun p => if p.1 = x then (x, v) else p)
  else
    env ++ [(x, v)]

def evalExpr (env : Env) : Expr → Bool
  | .boolLit b => b
  | .var x => lookupVar env x
  | .notE e => !evalExpr env e

def execLast : Option LastStat → Exit
  | none => .normal
  | some .breakS => .brk
  | some .continueS => .cont
  | some .returnS => .ret

mutual

def execB (fuel : Nat) (env : Env) (b : Block) : Option (Env × List Nat × Exit) :=
  match fuel, b with
  | 0, _ => none
  | f + 1, .mk ss last =>
    match execSs f env ss with
    | none => none
    | some (env1, tr, e) =>
      match e with
      | .normal => some (env1, tr, execLast last)
      | e => some (env1, tr, e)

def execSs (fuel : Nat) (env : Env) (ss : Stats) : Option (Env × List Nat × Exit) :=
  match fuel, ss with
  | 0, _ => none
  | _ + 1, .nil => some (env, [], .normal)
  | f + 1, .cons s r =>
    match execStat f env s with
    | none => none
    | some (env1, tr1, e1) =>
      match e1 with
      | .normal =>
        match execSs f env1 r with
        | none => none
        | some (env2, tr2, e2) => some (env2, tr1 ++ tr2, e2)
      | e1 => some (env1, tr1, e1)

def execStat (fuel : Nat) (env : Env) (s : Stat) : Option (Env × List Nat × Exit) :=
  match fuel, s with
  | 0, _ => none
  | _ + 1, .emit n => some (env, [n], .normal)
  | _ + 1, .localAssign x e => some (setVar env x (evalExpr env e), [], .normal)
  | _ + 1, .assign x e => some (setVar env x (evalExpr env e), [], .normal)
  | f + 1, .doS b => execB f env b
  | f + 1, .ifS brs els => execBr f env brs els
  | f + 1, .whileS c b =>
    if evalExpr env c then
      match execB f env b with
      | none => none
      | some (env1, tr, e) =>
        match e with
        | .brk => some (env1, tr, .normal)
        | .ret => some (env1, tr, .ret)
        | _ =>
          match execStat f env1 (.whileS c b) with
          | none => none
          | some (env2, tr2, e2) => some (env2, tr ++ tr2, e2)
    else some (env, [], .normal)
  | f + 1, .repeatS b c =>
    match execB f env b with
    | none => none
    | some (env1, tr, e) =>
      match e with
      | .brk => some (env1, tr, .normal)
      | .ret => some (env1, tr, .ret)
      | _ =>
        if evalExpr env1 c then some (env1, tr, .normal)
        else
          match execStat f env1 (.repeatS b c) with
          | none => none
          | some (env2, tr2, e2) => some (env2, tr ++ tr2, e2)
  | f + 1, .numericFor k b =>
    match k with
    | 0 => some (env, [], .normal)
    | k' + 1 =>
      match execB f env b with
      | none => none
      | some (env1, tr, e) =>
        match e with
        | .brk => some (env1, tr, .normal)
        | .ret => some (env1, tr, .ret)
        | _ =>
          match execStat f env1 (.numericFor k' b) with
          | none => none
          | some (env2, tr2, e2) => some (env2, tr ++ tr2, e2)

def execBr (fuel : Nat) (env : Env) (brs : Branches) (els : OptBlock) :
    Option (Env × List Nat × Exit) :=
  match fuel, brs with
  | 0, _ => none
  | f + 1, .nil =>
    match els with
    | .noneB => some (env, [], .normal)
    | .someB b => execB f env b
  | f + 1, .cons c b r =>
    if evalExpr env c then execB f env b else execBr f env r els

end

/-- The observable side-effect sequence of an execution result. -/
def sideTrace (r : Option (Env × List Nat × Exit)) : Option (List Nat) :=
  r.map (fun p => p.2.1)

mutual

/-- A `continue` terminator is present somewhere in the block, reachable
through `If` statements (condition branches and `else`) and `Do` blocks,
but not through nested loops.  This is the independent reachability notion
of the spec ("continue statements inside nested loops are not counted");
unlike `count_continue_break` it also looks inside `else` blocks. -/
def hasContinueB : Block → Bool
  | .mk ss last =>
    (match last with | some .continueS => true | _ => false) || hasContinueSs ss

def hasContinueSs : Stats → Bool
  | .nil => false
  | .cons s r => hasContinueStat s || hasContinueSs r

def hasContinueStat : Stat → Bool
  | .emit _ => false
  | .localAssign _ _ => false
  | .assign _ _ => false
  | .doS b => hasContinueB b
  | .ifS brs els => hasContinueBr brs || hasContinueOpt els
  | .whileS _ _ => false
  | .repeatS _ _ => false
  | .numericFor _ _ => false

def hasContinueBr : Branches → Bool
  | .nil => false
  | .cons _ b r => hasContinueB b || hasContinueBr r

def hasContinueOpt : OptBlock → Bool
  | .noneB => false
  | .someB b => hasContinueB b

end

mutual

/-- A tree is clean when every loop body in it (at any depth) has no
`continue` reachable through `If` condition branches or `Do` blocks, i.e.
`Processor::process` is a no-op on each of its loops. -/
def cleanB : Block → Bool
  | .mk ss _ => cleanSs ss

def cleanSs : Stats → Bool
  | .nil => true
  | .cons s r => cleanStat s && cleanSs r

def cleanStat : Stat → Bool
  | .emit _ => true
  | .localAssign _ _ => true
  | .assign _ _ => true
  | .doS b => cleanB b
  | .ifS brs els => cleanBr brs && cleanOpt els
  | .whileS _ b => ((count_continue_break b).1 == 0) && cleanB b
  | .repeatS b _ => ((count_continue_break b).1 == 0) && cleanB b
  | .numericFor _ b => ((count_continue_break b).1 == 0) && cleanB b

def cleanBr : Branches → Bool
  | .nil => true
  | .cons _ b r => cleanB b && cleanBr r

def cleanOpt : OptBlock → Bool
  | .noneB => true
  | .someB b => cleanB b

end

/- ===== Concrete inputs used to evaluate the claims on the rule. -/

/-- Concrete sentinel names (the hash-derived strings are irrelevant to the
control-flow semantics). -/
def nm0 : Names := ⟨"bv", "cv"⟩

/-- Loop body `do emit 1; if false then continue elseif false then break
elseif false then break end`: one reachable `continue`, two reachable
`break`s, and a reachable normal fall-through (all branch conditions can be
false). -/
def c1Body : Block :=
  .mk (.cons (.emit 1)
      (.cons (.ifS (.cons (.boolLit false) (.mk .nil (some .continueS))
                  (.cons (.boolLit false) (.mk .nil (some .breakS))
                  (.cons (.boolLit false) (.mk .nil (some .breakS)) .nil))) .noneB)
        .nil))
    none

/-- A loop body whose only `continue` sits inside a nested loop: the rule
must not touch it. -/
def c6Body : Block :=
  .mk (.cons (.emit 7)
      (.cons (.numericFor 2 (.mk (.cons (.emit 8) .nil) (some .continueS)))
        .nil))
    (some .breakS)

end RC

namespace RD

/- ===== Embedding of `remove_duplicated_keys.rs` (the active
`NodeProcessor::process_expression` implementation, lines 227-341). -/

/-- The evaluator's result type (`crate::process::LuaValue`).  Numbers are
modelled as rationals: the claims under study only involve the integrality
(`fract() == 0.0`) and positivity tests the rule performs, not
floating-point rounding. -/
inductive LuaValue where
  | nil
  | boolean (b : Bool)
  | number (q : ℚ)
  | str (s : String)
  | unknown
deriving DecidableEq, Repr

/-- Key/value expressions of a table literal: foldable literals plus opaque
side-effecting calls (identified by a tag so evaluation order is
observable). -/
inductive Expr where
  | nilE
  | boolE (b : Bool)
  | numE (q : ℚ)
  | strE (s : String)
  | call (id : Nat)
deriving DecidableEq, Repr

/-- Modelled from the spec: the constant evaluator
(`crate::process::Evaluator`, not under src/) folds literal
numbers/strings/booleans directly and resolves any expression involving a
call to `Unknown` (sound: never a wrong concrete value). -/
def evalE : Expr → LuaValue
  | .nilE => .nil
  | .boolE b => .boolean b
  | .numE q => .number q
  | .strE s => .str s
  | .call _ => .unknown

/-- `crate::nodes::TableEntry`: positional value, explicit `[key]=value`,
or named `field=value`. -/
inductive TableEntry where
  | value (e : Expr)
  | index (k : Expr) (v : Expr)
  | field (name : String) (v : Expr)
deriving DecidableEq, Repr

/-- The indexed-assignment statements the processor accumulates in
`side_effect_stmts`: `tbl[i] = v` for a resolved positive-integer index
(`key + 1` in the source), or `tbl[k] = v` for an unevaluable key
expression. -/
inductive SideStmt where
  | assignNum (idx : Nat) (v : Expr)
  | assignExpr (k : Expr) (v : Expr)
deriving DecidableEq, Repr

/-- Lookup in the association-list model of the `HashMap<usize, usize>`
(`table.get(&key)`). -/
def alGet (l : List (Nat × Nat)) (k : Nat) : Option Nat :=
  (l.find? (fun p => p.1 = k)).map (fun p => p.2)

/-- Insert in the association-list model (`table.insert(key, i)`): replace
the value of an existing key, only otherwise add the pair. -/
def alInsert (l : List (Nat × Nat)) (k v : Nat) : List (Nat × Nat) :=
  if (l.find? (fun p => p.1 = k)).isSome then
    l.map (fun p => if p.1 = k then (k, v) else p)
  else
    l ++ [(k, v)]

/-- State of the scan loop (src/rules/remove_duplicated_keys.rs:234-288):
the index map `table` (resolved 0-based index → entry position), the
positional counter `num_index`, the accumulated `side_effect_stmts` and the
(dead, never consumed) `to_remove` list. -/
structure ScanState where
  table : List (Nat × Nat)
  numIndex : Nat
  sideStmts : List SideStmt
  toRemove : List Nat
deriving DecidableEq, Repr

def initState : ScanState := ⟨[], 0, [], []⟩

/-- One iteration of the scan loop for the entry at position `i`. -/
def stepEntry (e : TableEntry) (i : Nat) (st : ScanState) : ScanState :=
  match e with
  | .index k v =>
    match evalE k with
    | .number q =>
      if q.den = 1 ∧ 0 < q then
        let key := q.num.toNat - 1
        if st.sideStmts.isEmpty then
          { st with
            toRemove := st.toRemove ++ (alGet st.table key).toList
            table := alInsert st.table key i }
        else
          { st with sideStmts := st.sideStmts ++ [.assignNum (key + 1) v] }
      else st
    | .unknown =>
      { st with
        sideStmts := st.sideStmts ++ [.assignExpr k v]
        toRemove := st.toRemove ++ [i] }
    | _ => st
  | .value _ =>
    { st with
      toRemove := st.toRemove ++ (alGet st.table st.numIndex).toList
      table := alInsert st.table st.numIndex i
      numIndex := st.numIndex + 1 }
  | .field _ _ => st

def scanAux : List TableEntry → Nat → ScanState → ScanState
  | [], _, st => st
  | e :: rest, i, st => scanAux rest (i + 1) (stepEntry e i st)

def scan (es : List TableEntry) : ScanState := scanAux es 0 initState

/-- The map keys collected and sorted ascending (`keys.sort()`). -/
def sortedKeys (st : ScanState) : List Nat :=
  List.insertionSort (· ≤ ·) (st.table.map Prod.fst)

/-- Rebuild of one surviving entry (the `match entry` in the `for i in keys`
loop): an explicit entry whose resolved 0-based index is at most `num_index`
is re-emitted positionally, any other explicit entry keeps its key syntax,
a positional entry is kept as a value. -/
def rebuildEntry (es : List TableEntry) (numIndex i pos : Nat) : Option TableEntry :=
  match es.get? pos with
  | some (.index k v) => if i ≤ numIndex then some (.value v) else some (.index k v)
  | some (.value e) => some (.value e)
  | _ => none

/-- `new_entries`: the literal rebuilt from the index map in ascending key
order. -/
def rebuild (es : List TableEntry) (st : ScanState) : List TableEntry :=
  (sortedKeys st).filterMap (fun i => (alGet st.table i).bind (rebuildEntry es st.numIndex i))

/-- A table expression after processing: still a table literal, or the
immediately-invoked function
`(function() local tbl = {base} <stmts> return tbl end)()`. -/
inductive TExpr where
  | tbl (entries : List TableEntry)
  | iife (base : List TableEntry) (stmts : List SideStmt)
deriving DecidableEq, Repr

/-- Embeds `Processor::process_expression`
(src/rules/remove_duplicated_keys.rs:227-341) on a table literal: scan,
rebuild the entry list in place, and if any side-effect statements were
accumulated, wrap base literal and statements into the immediately-invoked
function. -/
def processTable (es : List TableEntry) : TExpr :=
  let st := scan es
  let ne := rebuild es st
  if st.sideStmts.isEmpty then .tbl ne else .iife ne st.sideStmts

/-- The processor's action on an expression: table literals are processed,
anything else is left alone. -/
def processExpr : TExpr → TExpr
  | .tbl es => processTable es
  | .iife base stmts => .iife base stmts

/-- An entry whose key the evaluator resolves to a concrete value (never
`Unknown`); positional and named entries always qualify. -/
def entryConcrete : TableEntry → Bool
  | .index k _ => evalE k != .unknown
  | _ => true

/-- An entry of the only two shapes the rebuilt literal may contain: a
positional value, or an explicit entry whose key resolves to a positive
integer. -/
def goodShape : TableEntry → Prop
  | .value _ => True
  | .index k _ => ∃ q : ℚ, evalE k = .number q ∧ q.den = 1 ∧ 0 < q
  | .field _ _ => False

/-- The 1-based index each entry of a literal resolves to, in order: a
positional entry takes the next positional slot, an explicit entry takes its
resolved integer index (0 for shapes that cannot occur in a rebuilt
literal). -/
def resolvedIndicesAux : List TableEntry → Nat → List Nat
  | [], _ => []
  | .value _ :: r, c => (c + 1) :: resolvedIndicesAux r (c + 1)
  | .index k _ :: r, c =>
    (match evalE k with | .number q => q.num.toNat | _ => 0) :: resolvedIndicesAux r c
  | .field _ _ :: r, c => 0 :: resolvedIndicesAux r c

def resolvedIndices (es : List TableEntry) : List Nat := resolvedIndicesAux es 0

/-- Invariant of the scan state's index map: every pair `(i, pos)` points at
an entry of the scanned literal that is either positional (and then `i` is a
positional slot below the counter) or an explicit entry whose key resolved
to the positive integer `i + 1`; and the map's keys are distinct. -/
def TableInv (es : List TableEntry) (st : ScanState) : Prop :=
  (∀ p ∈ st.table, ∃ ent, es.get? p.2 = some ent ∧
    ((∃ e, ent = TableEntry.value e ∧ p.1 < st.numIndex) ∨
     (∃ k v q, ent = TableEntry.index k v ∧ evalE k = LuaValue.number q ∧
        q.den = 1 ∧ 0 < q ∧ p.1 + 1 = q.num.toNat)))
  ∧ (st.table.map Prod.fst).Nodup

/- ===== Reference semantics of a table literal with concrete keys: the
final key → value-expression mapping, later entries overriding earlier
ones. -/

def tableSet (m : List (LuaValue × Expr)) (k : LuaValue) (v : Expr) :
    List (LuaValue × Expr) :=
  if (m.find? (fun p => p.1 = k)).isSome then
    m.map (fun p => if p.1 = k then (k, v) else p)
  else
    m ++ [(k, v)]

def evalLiteralAux : List TableEntry → Nat → List (LuaValue × Expr) →
    List (LuaValue × Expr)
  | [], _, m => m
  | .value e :: r, c, m => evalLiteralAux r (c + 1) (tableSet m (.number (c + 1)) e)
  | .index k v :: r, c, m =>
    (match evalE k with
     | .nil => evalLiteralAux r c m
     | .unknown => evalLiteralAux r c m
     | kv => evalLiteralAux r c (tableSet m kv v))
  | .field n v :: r, c, m => evalLiteralAux r c (tableSet m (.str n) v)

/-- The key → value-expression mapping a concrete-keyed table literal
evaluates to (Lua semantics: positional counter for value entries, later
declarations win). -/
def evalLiteral (es : List TableEntry) : List (LuaValue × Expr) :=
  evalLiteralAux es 0 []

/- ===== Evaluation order of the key and value expressions. -/

def entryOrder : TableEntry → List Expr
  | .value e => [e]
  | .index k v => [k, v]
  | .field _ v => [v]

/-- Left-to-right evaluation order of all key and value expressions of a
literal. -/
def origOrder (es : List TableEntry) : List Expr := es.flatMap entryOrder

def stmtOrder : SideStmt → List Expr
  | .assignNum _ v => [v]
  | .assignExpr k v => [k, v]

/-- Evaluation order of the rewritten expression: the base literal first
(it is the initializer of `local tbl = {...}`), then each indexed
assignment in statement order. -/
def rewrittenOrder : TExpr → List Expr
  | .tbl es => origOrder es
  | .iife base stmts => origOrder base ++ stmts.flatMap stmtOrder

/- ===== Concrete inputs used to evaluate the claims on the rule. -/

/-- `{x = 1, ['x'] = 2}` — the input of the repository's own rule test
`redeclared_field_and_index` (src/tests/rule_tests/remove_redeclared_keys.rs),
expected there to rewrite to `{['x'] = 2}`. -/
def c2Input : List TableEntry :=
  [.field "x" (.numE 1), .index (.strE "x") (.numE 2)]

/-- `{[f()] = 'A', 2}` — an unknown-keyed entry followed by a positional
entry. -/
def c3Input : List TableEntry :=
  [.index (.call 0) (.strE "A"), .value (.numE 2)]

/-- `{1, [f()] = 'A'}` — the spec's own side-effect-order example. -/
def c3SpecExample : List TableEntry :=
  [.value (.numE 1), .index (.call 0) (.strE "A")]

/-- `{1, [1] = 'A'}`. -/
def c2Example1 : List TableEntry :=
  [.value (.numE 1), .index (.numE 1) (.strE "A")]

/-- `{1, 2, 3, [3] = 'A', [4] = 'B', [6] = 'C', [7] = 'D'}`. -/
def c2Example2 : List TableEntry :=
  [.value (.numE 1), .value (.numE 2), .value (.numE 3),
   .index (.numE 3) (.strE "A"), .index (.numE 4) (.strE "B"),
   .index (.numE 6) (.strE "C"), .index (.numE 7) (.strE "D")]

/-- Keys of the claim-C9 witness literal. -/
def c9Input : List TableEntry :=
  [.value (.numE 1), .field "x" (.numE 9), .index (.numE 5) (.strE "C"),
   .index (.strE "y") (.numE 8), .index (.numE 2) (.strE "B"),
   .index (.numE (3/2)) (.nilE), .index (.numE 0) (.boolE true)]

end RD

namespace RG

/- ===== Embedding of `remove_generalized_iteration.rs` (Processor,
lines 17-164).  Expressions cover what the shim construction needs:
identifiers, strings, field access, calls through a plain name or through a
field of a named variable, and the `==` / `and` binary operators.
Statements cover the generated shapes plus an observable opaque `emit`
statement; a block is its statement list (the source's `Block::clear`
empties the block before the do-statement is inserted). -/

inductive BinOp where
  | equal
  | andOp
deriving DecidableEq, Repr

inductive Callee where
  | nameC (n : String)
  | fieldC (obj : String) (fname : String)
deriving DecidableEq, Repr

inductive Expr where
  | ident (n : String)
  | str (s : String)
  | field (obj : Expr) (name : String)
  | binary (op : BinOp) (l : Expr) (r : Expr)
  | call (fn : Callee) (args : List Expr)

inductive Stat where
  | localAssign (names : List String) (values : List Expr)
  | assign (targets : List String) (values : List Expr)
  | ifS (branches : List (Expr × List Stat)) (els : Option (List Stat))
  | doS (b : List Stat)
  | genericFor (names : List String) (exprs : List Expr) (body : List Stat)
  | emit (n : Nat)

/-- A block, reduced to its statement list (terminators play no role in this
rule's claims). -/
abbrev Stats := List Stat

/-- `get_type_condition` (src/rules/remove_generalized_iteration.rs:24-35):
`type(arg) == "<type_name>"`. -/
def get_type_condition (arg : Expr) (typeName : String) : Expr :=
  .binary .equal (.call (.nameC "type") [arg]) (.str typeName)

/-- The literal name of the metatable local (`METATABLE_VARIABLE_NAME`). -/
def metatableVariableName : String := "_m"

/-- The three generated variable names held by the `Processor`. -/
structure IterNames where
  iter : String
  invar : String
  control : String
deriving DecidableEq, Repr

/-- The do-statement `Processor::process_into_do` builds around a
single-expression generic-for (src/rules/remove_generalized_iteration.rs:
43-143): evaluate the expression once into the iterator/invariant/control
locals, branch on `type(iter) == "table"`, fetch the metatable, prefer
`_m.__iter` when it is a function, fall back to `pairs(iter)`, and re-emit
the loop consuming the resolved triple with its body unchanged. -/
def buildDo (nms : IterNames) (loopNames : List String) (x : Expr) (body : Stats) : Stat :=
  let iterExp : Expr := .ident nms.iter
  let invarExp : Expr := .ident nms.invar
  let controlExp : Expr := .ident nms.control
  let iteratorLocalAssign : Stat := .localAssign [nms.iter, nms.invar, nms.control] [x]
  let ifTableCondition := get_type_condition iterExp "table"
  let mtLocalAssign : Stat :=
    .localAssign [metatableVariableName] [.call (.nameC "getmetatable") [iterExp]]
  let ifMtTableCondition := get_type_condition (.ident metatableVariableName) "table"
  let mtIter : Expr := .field (.ident metatableVariableName) "__iter"
  let ifMtIterFunctionCondition := get_type_condition mtIter "function"
  let assignFromIter : Stat :=
    .assign [nms.iter, nms.invar, nms.control] [.call (.fieldC metatableVariableName "__iter") []]
  let assignFromPairs : Stat :=
    .assign [nms.iter, nms.invar, nms.control] [.call (.nameC "pairs") [iterExp]]
  let ifMtTableStmt : Stat :=
    .ifS [(.binary .andOp ifMtTableCondition ifMtIterFunctionCondition, [assignFromIter])]
      (some [assignFromPairs])
  let ifTableStmt : Stat := .ifS [(ifTableCondition, [mtLocalAssign, ifMtTableStmt])] none
  let rewrittenFor : Stat := .genericFor loopNames [iterExp, invarExp, controlExp] body
  .doS [iteratorLocalAssign, ifTableStmt, rewrittenFor]

/-- Embeds the search loop of `Processor::process_into_do`
(src/rules/remove_generalized_iteration.rs:38-148): the first generic-for
statement with exactly one iterated expression yields the do-statement;
generic-for statements with any other number of expressions are skipped. -/
def process_into_do (nms : IterNames) : Stats → Option Stat
  | [] => none
  | .genericFor loopNames [x] body :: _ => some (buildDo nms loopNames x body)
  | _ :: rest => process_into_do nms rest

/-- Embeds `NodeProcessor::process_block`
(src/rules/remove_generalized_iteration.rs:152-163) in its non-skipped
state: when `process_into_do` produces a do-statement, the block is cleared
(`block.clear()`) and the do-statement inserted at position 0, so the
resulting block holds exactly that one statement. -/
def process_block (nms : IterNames) (b : Stats) : Stats :=
  match process_into_do nms b with
  | none => b
  | some st => [st]

/-- Concrete generated names for evaluation. -/
def nms0 : IterNames := ⟨"__iterV", "__invarV", "__controlV"⟩

/-- A block with observable statements on both sides of a single-expression
generic-for loop. -/
def c4Input : Stats :=
  [.emit 1, .genericFor ["k", "v"] [.ident "x"] [.emit 5], .emit 2]

/-- A block whose only generic-for uses the classic three-expression
protocol. -/
def c4Multi : Stats :=
  [.emit 1, .genericFor ["k"] [.ident "f", .ident "s", .ident "c"] [.emit 5], .emit 2]

/-- The do-statement the rule builds for `c4Input`'s loop. -/
def c4ExpectedDo : Stat := buildDo nms0 ["k", "v"] (.ident "x") [.emit 5]

end RG

namespace CB

/- ===== Embedding of `convert_bit32.rs`. -/

/-- Binary operators (a representative subset of
`crate::nodes::BinaryOperator` including the two the claims need). -/
inductive BinOp where
  | plus
  | minus
  | asterisk
  | doubleGreaterThan
  | doubleLesserThan
deriving DecidableEq, Repr

inductive Expr where
  | num (n : Int)
  | ident (s : String)
  | binary (op : BinOp) (l : Expr) (r : Expr)
deriving DecidableEq, Repr

/-- Embeds `Processor::process_binary_expression`
(src/rules/convert_bit32.rs:12-22): the node-local hook rebuilds the binary
expression with operator `>>` and the (cloned, unmodified) left and right
operands. -/
def process_binary_expression : BinOp × Expr × Expr → BinOp × Expr × Expr
  | (_, l, r) => (.doubleGreaterThan, l, r)

/-- Modelled from the spec: `DefaultVisitor` (crate::process, not under
src/) fires the `process_binary_expression` hook on every binary expression
node and then descends into its operands (§4.1: depth-first walk, hooks fire
so a rule can rewrite the node it is looking at).  Net effect of
`ConvertBit32::flawless_process` on an expression tree: every binary node's
operator becomes `>>`; operand subtrees are themselves processed. -/
def convertExpr : Expr → Expr
  | .num n => .num n
  | .ident s => .ident s
  | .binary _ l r => .binary .doubleGreaterThan (convertExpr l) (convertExpr r)

/-- Every binary node of the expression carries the `>>` operator. -/
def allRShift : Expr → Bool
  | .num _ => true
  | .ident _ => true
  | .binary op l r => (op == .doubleGreaterThan) && allRShift l && allRShift r

/-- The operator-erased skeleton of an expression. -/
inductive Skel where
  | num (n : Int)
  | ident (s : String)
  | node (l : Skel) (r : Skel)
deriving DecidableEq, Repr

def skeleton : Expr → Skel
  | .num n => .num n
  | .ident s => .ident s
  | .binary _ l r => .node (skeleton l) (skeleton r)

end CB

namespace CFG

/- ===== Rule configuration (`RuleConfiguration::configure`). -/

/-- Values of a rule property mapping (`RulePropertyValue`, restricted to
the variants exercised here). -/
inductive PropValue where
  | stringV (s : String)
  | boolV (b : Bool)
  | intV (n : Int)
deriving DecidableEq, Repr

abbrev Properties := List (String × PropValue)

/-- Configuration errors (`RuleConfigurationError`): an unrecognized
property key, or a value of the wrong type for a recognized key. -/
inductive ConfigError where
  | unexpectedProperty (k : String)
  | stringExpected (k : String)
deriving DecidableEq, Repr

/-- `RulePropertyValue::expect_string(&key)`. -/
def expectString (k : String) : PropValue → Except ConfigError String
  | .stringV s => .ok s
  | _ => .error (.stringExpected k)

/-- Embeds `RemoveContinue::configure`
(src/rules/remove_continue.rs:217-228), iterating the property mapping:
`runtime_variable_format` must be a string and replaces the current format;
any other key fails with `UnexpectedProperty(key)`.
`RemoveGeneralizedIteration::configure`
(src/rules/remove_generalized_iteration.rs:202-213) is identical. -/
def configureRuntimeVariableFormat : Properties → String → Except ConfigError String
  | [], fmt => .ok fmt
  | (k, v) :: rest, _fmt =>
    if k = "runtime_variable_format" then
      match expectString k v with
      | .ok s => configureRuntimeVariableFormat rest s
      | .error e => .error e
    else .error (.unexpectedProperty k)

/-- Modelled from the spec: `verify_no_rule_properties`
(src/rules mod, not under src/) rejects every non-empty property mapping,
naming the offending key (§6: "redeclared-key rule → no configuration
accepted"; the rule test expects the message `unexpected field 'prop'`). -/
def verify_no_rule_properties : Properties → Except ConfigError Unit
  | [] => .ok ()
  | (k, _) :: _ => .error (.unexpectedProperty k)

/-- Embeds `RemoveDuplicatedKeys::configure`
(src/rules/remove_duplicated_keys.rs:364-368). -/
def removeDuplicatedKeysConfigure (props : Properties) : Except ConfigError Unit :=
  verify_no_rule_properties props

/-- Modelled from the spec: the pipeline configures a rule fully before it
is permitted to touch the tree (§4.3, §7) — on a configuration error the
rule's apply step never runs and the tree is returned as given. -/
def runConfiguredRule {α β : Type} (configure : Properties → Except ConfigError α)
    (apply : α → β → β) (props : Properties) (tree : β) :
    Except ConfigError Unit × β :=
  match configure props with
  | .error e => (.error e, tree)
  | .ok cfg => (.ok (), apply cfg tree)

end CFG

namespace RV

/- ===== Deterministic runtime-variable naming. -/

/-- Modelled from the spec: the content hash used by
`RuntimeVariableBuilder` (super::runtime_variable, not under src/): a
deterministic pure function of the serialized bytes (§9: "derive a content
hash from original source bytes plus a rule-specific seed ... no
process-wide mutable state"). -/
def specHash (bytes : List Nat) : Nat :=
  bytes.foldl (fun h b => (h * 33 + b) % (2 ^ 64)) 5381

/-- `some remainder` when `marker` is a prefix of the second list,
`remainder` being what follows it. -/
def stripMarker : List Char → List Char → Option (List Char)
  | [], s => some s
  | _ :: _, [] => none
  | m :: ms, c :: cs => if c = m then stripMarker ms cs else none

def replaceMarkerAux (marker repl : List Char) : Nat → List Char → List Char
  | 0, s => s
  | _ + 1, [] => []
  | gas + 1, c :: rest =>
    match stripMarker marker (c :: rest) with
    | some remainder => repl ++ replaceMarkerAux marker repl gas remainder
    | none => c :: replaceMarkerAux marker repl gas rest

/-- Replace every occurrence of `marker` in `s` by `repl`. -/
def replaceMarker (s marker repl : List Char) : List Char :=
  replaceMarkerAux marker repl s.length s

/-- Modelled from the spec: `RuntimeVariableBuilder::build(name)`
(super::runtime_variable, not under src/): instantiate the configurable
template, substituting the requested name for `{name}` and the rendered
content hash for `{hash}` (§4.4 step 5). -/
def buildRuntimeVariable (format : String) (bytes : List Nat) (name : String) : String :=
  String.mk (replaceMarker
    (replaceMarker format.toList "{name}".toList name.toList)
    "{hash}".toList (Nat.repr (specHash bytes)).toList)

def encodeString (s : String) : List Nat :=
  s.length :: s.toList.map Char.toNat

def encodeExpr : RC.Expr → List Nat
  | .boolLit b => [0, if b then 1 else 0]
  | .var x => 1 :: encodeString x
  | .notE e => 2 :: encodeExpr e

def encodeLast : Option RC.LastStat → List Nat
  | none => [0]
  | some .breakS => [1]
  | some .continueS => [2]
  | some .returnS => [3]

mutual

/-- Serialization of a block to bytes, standing for the
`format!("{block:?}")` debug serialization whose bytes seed the name
derivation (src/rules/remove_continue.rs:204). -/
def encodeB : RC.Block → List Nat
  | .mk ss last => 0 :: encodeLast last ++ encodeSs ss

def encodeSs : RC.Stats → List Nat
  | .nil => [1]
  | .cons s r => 2 :: encodeStat s ++ encodeSs r

def encodeStat : RC.Stat → List Nat
  | .emit n => [3, n]
  | .localAssign x e => 4 :: encodeString x ++ encodeExpr e
  | .assign x e => 5 :: encodeString x ++ encodeExpr e
  | .doS b => 6 :: encodeB b
  | .ifS brs els => 7 :: encodeBr brs ++ encodeOpt els
  | .whileS c b => 8 :: encodeExpr c ++ encodeB b
  | .repeatS b c => 9 :: encodeB b ++ encodeExpr c
  | .numericFor k b => 10 :: k :: encodeB b

def encodeBr : RC.Branches → List Nat
  | .nil => [11]
  | .cons c b r => 12 :: encodeExpr c ++ encodeB b ++ encodeBr r

def encodeOpt : RC.OptBlock → List Nat
  | .noneB => [13]
  | .someB b => 14 :: encodeB b

end

/-- Embeds `RemoveContinue::process`'s construction of the two helper names
(src/rules/remove_continue.rs:201-210): both are derived from the configured
format and the serialized bytes of the block being processed, and from
nothing else. -/
def removeContinueNames (format : String) (b : RC.Block) : String × String :=
  (buildRuntimeVariable format (encodeB b) "break",
   buildRuntimeVariable format (encodeB b) "continue")

/-- The default `runtime_variable_format` of `RemoveContinue`
(src/rules/remove_continue.rs:195). -/
def defaultRemoveContinueFormat : String := "_DARKLUA_REMOVE_CONTINUE_{name}{hash}"

/-- The full apply step of the configured `remove_continue` rule: derive the
two helper names from the configured format and the serialized block, then
run the visitor (src/rules/remove_continue.rs:201-212). -/
def applyRemoveContinue (fmt : String) (b : RC.Block) : RC.Block :=
  RC.visitB
    ⟨buildRuntimeVariable fmt (encodeB b) "break",
     buildRuntimeVariable fmt (encodeB b) "continue"⟩ b

end RV


/-!
## Theorems

Everything below is proof: first the supporting lemmas for each rule, then
one named theorem per specified claim (with a closed witness where the
theorem carries hypotheses).
-/

namespace RC

theorem cwbtbSs_append (wc : Bool) (nm : Names) : ∀ ss t : Stats,
    cwbtbSs wc nm (appendStats ss t) = appendStats (cwbtbSs wc nm ss) (cwbtbSs wc nm t)
  | .nil, _ => rfl
  | .cons s r, t => by simp [appendStats, cwbtbSs, cwbtbSs_append wc nm r t]

theorem cwbtb_transformLast_fst (wc wc' : Bool) (nm nm' : Names) (last : Option LastStat) :
    cwbtbSs wc nm (transformLast wc' nm' last).1 = (transformLast wc' nm' last).1 := by
  rcases last with _ | l
  · rfl
  · cases l <;> cases wc' <;> rfl

/-- The definition of `continues_with_breaks_to_breaks` above appends the
sentinel assignment after iterating the statements; the source iterates
after appending.  The two agree. -/
theorem cwbtb_append_eq (wc : Bool) (nm : Names) (ss : Stats) (last : Option LastStat) :
    cwbtbSs wc nm (appendStats ss (transformLast wc nm last).1)
      = appendStats (cwbtbSs wc nm ss) (transformLast wc nm last).1 := by
  rw [cwbtbSs_append, cwbtb_transformLast_fst]

theorem countSs_append : ∀ ss t : Stats,
    countSs (appendStats ss t) = addPair (countSs ss) (countSs t)
  | .nil, t => by simp [appendStats, countSs, addPair]
  | .cons s r, t => by
    simp [appendStats, countSs, countSs_append r t, addPair, Nat.add_assoc]

mutual

theorem count_visitB (nm : Names) : ∀ b : Block,
    count_continue_break (visitB nm b) = count_continue_break b
  | .mk ss last => by
    simp only [visitB, count_continue_break]
    rw [count_visitSs nm ss]

theorem count_visitSs (nm : Names) : ∀ ss : Stats,
    countSs (visitSs nm ss) = countSs ss
  | .nil => rfl
  | .cons s r => by
    simp only [visitSs, countSs]
    rw [count_visitStat nm s, count_visitSs nm r]

theorem count_visitStat (nm : Names) : ∀ s : Stat,
    countStat (visitStat nm s) = countStat s
  | .emit _ => rfl
  | .localAssign _ _ => rfl
  | .assign _ _ => rfl
  | .doS b => by
    simp only [visitStat, countStat]
    exact count_visitB nm b
  | .ifS brs els => by
    simp only [visitStat, countStat]
    exact count_visitBr nm brs
  | .whileS _ _ => rfl
  | .repeatS _ _ => rfl
  | .numericFor _ _ => rfl

theorem count_visitBr (nm : Names) : ∀ brs : Branches,
    countBr (visitBr nm brs) = countBr brs
  | .nil => rfl
  | .cons c b r => by
    simp only [visitBr, countBr]
    rw [count_visitB nm b, count_visitBr nm r]

end

theorem countLast_ctb_fst (last : Option LastStat) : (countLast (ctbLast last)).1 = 0 := by
  rcases last with _ | l
  · rfl
  · cases l <;> rfl

mutual

theorem cc_ctbB : ∀ b : Block, (count_continue_break (continues_to_breaks b)).1 = 0
  | .mk ss last => by
    simp only [continues_to_breaks, count_continue_break, addPair]
    have h1 := countLast_ctb_fst last
    have h2 := cc_ctbSs ss
    omega

theorem cc_ctbSs : ∀ ss : Stats, (countSs (ctbSs ss)).1 = 0
  | .nil => rfl
  | .cons s r => by
    simp only [ctbSs, countSs, addPair]
    have h1 := cc_ctbStat s
    have h2 := cc_ctbSs r
    omega

theorem cc_ctbStat : ∀ s : Stat, (countStat (ctbStat s)).1 = 0
  | .emit _ => rfl
  | .localAssign _ _ => rfl
  | .assign _ _ => rfl
  | .doS b => cc_ctbB b
  | .ifS brs _ => cc_ctbBr brs
  | .whileS _ _ => rfl
  | .repeatS _ _ => rfl
  | .numericFor _ _ => rfl

theorem cc_ctbBr : ∀ brs : Branches, (countBr (ctbBr brs)).1 = 0
  | .nil => rfl
  | .cons _ b r => by
    simp only [ctbBr, countBr, addPair]
    have h1 := cc_ctbB b
    have h2 := cc_ctbBr r
    omega

end

theorem countLast_transformLast_fst (wc : Bool) (nm : Names) (last : Option LastStat) :
    (countLast (transformLast wc nm last).2).1 = 0 := by
  rcases last with _ | l
  · rfl
  · cases l <;> cases wc <;> rfl

theorem countSs_transformLast_fst (wc : Bool) (nm : Names) (last : Option LastStat) :
    (countSs (transformLast wc nm last).1).1 = 0 := by
  rcases last with _ | l
  · rfl
  · cases l <;> cases wc <;> rfl

mutual

theorem cc_cwbtbB (wc : Bool) (nm : Names) : ∀ b : Block,
    (count_continue_break (continues_with_breaks_to_breaks wc nm b)).1 = 0
  | .mk ss last => by
    simp only [continues_with_breaks_to_breaks, count_continue_break, countSs_append, addPair]
    have h1 := countLast_transformLast_fst wc nm last
    have h2 := countSs_transformLast_fst wc nm last
    have h3 := cc_cwbtbSs wc nm ss
    omega

theorem cc_cwbtbSs (wc : Bool) (nm : Names) : ∀ ss : Stats,
    (countSs (cwbtbSs wc nm ss)).1 = 0
  | .nil => rfl
  | .cons s r => by
    simp only [cwbtbSs, countSs, addPair]
    have h1 := cc_cwbtbStat wc nm s
    have h2 := cc_cwbtbSs wc nm r
    omega

theorem cc_cwbtbStat (wc : Bool) (nm : Names) : ∀ s : Stat,
    (countStat (cwbtbStat wc nm s)).1 = 0
  | .emit _ => rfl
  | .localAssign _ _ => rfl
  | .assign _ _ => rfl
  | .doS b => cc_cwbtbB wc nm b
  | .ifS brs _ => cc_cwbtbBr wc nm brs
  | .whileS _ _ => rfl
  | .repeatS _ _ => rfl
  | .numericFor _ _ => rfl

theorem cc_cwbtbBr (wc : Bool) (nm : Names) : ∀ brs : Branches,
    (countBr (cwbtbBr wc nm brs)).1 = 0
  | .nil => rfl
  | .cons _ b r => by
    simp only [cwbtbBr, countBr, addPair]
    have h1 := cc_cwbtbB wc nm b
    have h2 := cc_cwbtbBr wc nm r
    omega

end

theorem fusedBodyAux_zero (nm : Names) (c : Nat × Nat) (bv : Block) (h : c.1 = 0) :
    fusedBodyAux nm c bv = bv := by
  unfold fusedBodyAux
  simp [h]

theorem fusedBodyAux_continue_only (nm : Names) (c : Nat × Nat) (bv : Block)
    (h1 : 0 < c.1) (h2 : c.2 = 0) :
    fusedBodyAux nm c bv
      = .mk (.cons (.repeatS (continues_to_breaks bv) (.boolLit true)) .nil) none := by
  unfold fusedBodyAux
  simp [h1, h2]

theorem fusedBodyAux_both (nm : Names) (c : Nat × Nat) (bv : Block)
    (h1 : 0 < c.1) (h2 : 0 < c.2) :
    fusedBodyAux nm c bv
      = sentinelWrap nm (decide (c.1 < c.2))
          (continues_with_breaks_to_breaks (decide (c.1 < c.2)) nm bv) := by
  unfold fusedBodyAux
  simp [h1, h2]

theorem process_of_no_continue (nm : Names) (b : Block)
    (h : (count_continue_break b).1 = 0) : process nm b = b :=
  fusedBodyAux_zero nm _ b h

theorem visitSs_append (nm : Names) : ∀ ss t : Stats,
    visitSs nm (appendStats ss t) = appendStats (visitSs nm ss) (visitSs nm t)
  | .nil, _ => rfl
  | .cons s r, t => by simp [appendStats, visitSs, visitSs_append nm r t]

theorem visit_transformLast_fst (nm : Names) (wc : Bool) (nm' : Names)
    (last : Option LastStat) :
    visitSs nm (transformLast wc nm' last).1 = (transformLast wc nm' last).1 := by
  rcases last with _ | l
  · rfl
  · cases l <;> cases wc <;> rfl

mutual

theorem visit_ctbB (nm : Names) : ∀ b : Block,
    visitB nm (continues_to_breaks b) = continues_to_breaks (visitB nm b)
  | .mk ss last => by
    simp only [continues_to_breaks, visitB]
    rw [visit_ctbSs nm ss]

theorem visit_ctbSs (nm : Names) : ∀ ss : Stats,
    visitSs nm (ctbSs ss) = ctbSs (visitSs nm ss)
  | .nil => rfl
  | .cons s r => by
    simp only [ctbSs, visitSs]
    rw [visit_ctbStat nm s, visit_ctbSs nm r]

theorem visit_ctbStat (nm : Names) : ∀ s : Stat,
    visitStat nm (ctbStat s) = ctbStat (visitStat nm s)
  | .emit _ => rfl
  | .localAssign _ _ => rfl
  | .assign _ _ => rfl
  | .doS b => by
    simp only [ctbStat, visitStat]
    rw [visit_ctbB nm b]
  | .ifS brs els => by
    simp only [ctbStat, visitStat]
    rw [visit_ctbBr nm brs]
  | .whileS _ _ => rfl
  | .repeatS _ _ => rfl
  | .numericFor _ _ => rfl

theorem visit_ctbBr (nm : Names) : ∀ brs : Branches,
    visitBr nm (ctbBr brs) = ctbBr (visitBr nm brs)
  | .nil => rfl
  | .cons c b r => by
    simp only [ctbBr, visitBr]
    rw [visit_ctbB nm b, visit_ctbBr nm r]

end

mutual

theorem visit_cwbtbB (nm : Names) (wc : Bool) (nm' : Names) : ∀ b : Block,
    visitB nm (continues_with_breaks_to_breaks wc nm' b)
      = continues_with_breaks_to_breaks wc nm' (visitB nm b)
  | .mk ss last => by
    simp only [continues_with_breaks_to_breaks, visitB]
    rw [visitSs_append, visit_transformLast_fst, visit_cwbtbSs nm wc nm' ss]

theorem visit_cwbtbSs (nm : Names) (wc : Bool) (nm' : Names) : ∀ ss : Stats,
    visitSs nm (cwbtbSs wc nm' ss) = cwbtbSs wc nm' (visitSs nm ss)
  | .nil => rfl
  | .cons s r => by
    simp only [cwbtbSs, visitSs]
    rw [visit_cwbtbStat nm wc nm' s, visit_cwbtbSs nm wc nm' r]

theorem visit_cwbtbStat (nm : Names) (wc : Bool) (nm' : Names) : ∀ s : Stat,
    visitStat nm (cwbtbStat wc nm' s) = cwbtbStat wc nm' (visitStat nm s)
  | .emit _ => rfl
  | .localAssign _ _ => rfl
  | .assign _ _ => rfl
  | .doS b => by
    simp only [cwbtbStat, visitStat]
    rw [visit_cwbtbB nm wc nm' b]
  | .ifS brs els => by
    simp only [cwbtbStat, visitStat]
    rw [visit_cwbtbBr nm wc nm' brs]
  | .whileS _ _ => rfl
  | .repeatS _ _ => rfl
  | .numericFor _ _ => rfl

theorem visit_cwbtbBr (nm : Names) (wc : Bool) (nm' : Names) : ∀ brs : Branches,
    visitBr nm (cwbtbBr wc nm' brs) = cwbtbBr wc nm' (visitBr nm brs)
  | .nil => rfl
  | .cons c b r => by
    simp only [cwbtbBr, visitBr]
    rw [visit_cwbtbB nm wc nm' b, visit_cwbtbBr nm wc nm' r]

end

/-- The visitor equation of the source: visiting a processed loop body
equals the fused form used in `visitStat`. -/
theorem visit_process_eq (nm : Names) (b : Block) :
    visitB nm (process nm b) = fusedBody nm b := by
  unfold process fusedBody
  rcases Nat.eq_zero_or_pos (count_continue_break b).1 with h1 | h1
  · rw [fusedBodyAux_zero nm _ b h1, fusedBodyAux_zero nm _ (visitB nm b) h1]
  · rcases Nat.eq_zero_or_pos (count_continue_break b).2 with h2 | h2
    · rw [fusedBodyAux_continue_only nm _ b h1 h2,
          fusedBodyAux_continue_only nm _ (visitB nm b) h1 h2]
      simp only [visitB, visitSs, visitStat]
      rw [fusedBodyAux_zero nm _ _ (cc_ctbB b), visit_ctbB nm b]
    · rw [fusedBodyAux_both nm _ b h1 h2, fusedBodyAux_both nm _ (visitB nm b) h1 h2]
      simp only [sentinelWrap, visitB, visitSs, visitStat, visitBr, visitOpt]
      rw [fusedBodyAux_zero nm _ _ (cc_cwbtbB _ nm b), visit_cwbtbB nm _ nm b]

/-- Pre-order visitor equation at a `while` loop: the hook processes the
body, then the walk descends into the mutated body. -/
theorem visitStat_while (nm : Names) (c : Expr) (b : Block) :
    visitStat nm (.whileS c b) = .whileS c (visitB nm (process nm b)) := by
  rw [visit_process_eq]
  rfl

/-- Pre-order visitor equation at a `repeat` loop. -/
theorem visitStat_repeat (nm : Names) (c : Expr) (b : Block) :
    visitStat nm (.repeatS b c) = .repeatS (visitB nm (process nm b)) c := by
  rw [visit_process_eq]
  rfl

/-- Pre-order visitor equation at a numeric `for` loop. -/
theorem visitStat_numericFor (nm : Names) (k : Nat) (b : Block) :
    visitStat nm (.numericFor k b) = .numericFor k (visitB nm (process nm b)) := by
  rw [visit_process_eq]
  rfl

end RC

namespace RC

theorem cleanSs_append : ∀ ss t : Stats,
    cleanSs (appendStats ss t) = (cleanSs ss && cleanSs t)
  | .nil, t => by simp [appendStats, cleanSs]
  | .cons s r, t => by
    simp [appendStats, cleanSs, cleanSs_append r t, Bool.and_assoc]

theorem cleanSs_transformLast_fst (wc : Bool) (nm : Names) (last : Option LastStat) :
    cleanSs (transformLast wc nm last).1 = true := by
  rcases last with _ | l
  · rfl
  · cases l <;> cases wc <;> rfl

mutual

theorem clean_ctbB : ∀ b : Block, cleanB (continues_to_breaks b) = cleanB b
  | .mk ss last => by
    simp only [continues_to_breaks, cleanB]
    exact clean_ctbSs ss

theorem clean_ctbSs : ∀ ss : Stats, cleanSs (ctbSs ss) = cleanSs ss
  | .nil => rfl
  | .cons s r => by
    simp only [ctbSs, cleanSs]
    rw [clean_ctbStat s, clean_ctbSs r]

theorem clean_ctbStat : ∀ s : Stat, cleanStat (ctbStat s) = cleanStat s
  | .emit _ => rfl
  | .localAssign _ _ => rfl
  | .assign _ _ => rfl
  | .doS b => by
    simp only [ctbStat, cleanStat]
    exact clean_ctbB b
  | .ifS brs els => by
    simp only [ctbStat, cleanStat]
    rw [clean_ctbBr brs]
  | .whileS _ _ => rfl
  | .repeatS _ _ => rfl
  | .numericFor _ _ => rfl

theorem clean_ctbBr : ∀ brs : Branches, cleanBr (ctbBr brs) = cleanBr brs
  | .nil => rfl
  | .cons _ b r => by
    simp only [ctbBr, cleanBr]
    rw [clean_ctbB b, clean_ctbBr r]

end

mutual

theorem clean_cwbtbB (wc : Bool) (nm : Names) : ∀ b : Block,
    cleanB (continues_with_breaks_to_breaks wc nm b) = cleanB b
  | .mk ss last => by
    simp only [continues_with_breaks_to_breaks, cleanB, cleanSs_append,
      cleanSs_transformLast_fst, Bool.and_true]
    exact clean_cwbtbSs wc nm ss

theorem clean_cwbtbSs (wc : Bool) (nm : Names) : ∀ ss : Stats,
    cleanSs (cwbtbSs wc nm ss) = cleanSs ss
  | .nil => rfl
  | .cons s r => by
    simp only [cwbtbSs, cleanSs]
    rw [clean_cwbtbStat wc nm s, clean_cwbtbSs wc nm r]

theorem clean_cwbtbStat (wc : Bool) (nm : Names) : ∀ s : Stat,
    cleanStat (cwbtbStat wc nm s) = cleanStat s
  | .emit _ => rfl
  | .localAssign _ _ => rfl
  | .assign _ _ => rfl
  | .doS b => by
    simp only [cwbtbStat, cleanStat]
    exact clean_cwbtbB wc nm b
  | .ifS brs els => by
    simp only [cwbtbStat, cleanStat]
    rw [clean_cwbtbBr wc nm brs]
  | .whileS _ _ => rfl
  | .repeatS _ _ => rfl
  | .numericFor _ _ => rfl

theorem clean_cwbtbBr (wc : Bool) (nm : Names) : ∀ brs : Branches,
    cleanBr (cwbtbBr wc nm brs) = cleanBr brs
  | .nil => rfl
  | .cons _ b r => by
    simp only [cwbtbBr, cleanBr]
    rw [clean_cwbtbB wc nm b, clean_cwbtbBr wc nm r]

end

/-- A fused loop body built from a clean visited body with unchanged counts
is itself clean and free of reachable continues: the conjunction that
`cleanStat` requires of every loop body. -/
theorem clean_fusedBodyAux (nm : Names) (c : Nat × Nat) (bv : Block)
    (hcount : (count_continue_break bv).1 = c.1)
    (hclean : cleanB bv = true) :
    (((count_continue_break (fusedBodyAux nm c bv)).1 == 0)
      && cleanB (fusedBodyAux nm c bv)) = true := by
  rcases Nat.eq_zero_or_pos c.1 with h1 | h1
  · rw [fusedBodyAux_zero nm c bv h1]
    simp [hcount, h1, hclean]
  · rcases Nat.eq_zero_or_pos c.2 with h2 | h2
    · rw [fusedBodyAux_continue_only nm c bv h1 h2]
      simp [count_continue_break, countSs, countStat, countLast, addPair,
        cleanB, cleanSs, cleanStat, cc_ctbB, clean_ctbB, hclean]
    · rw [fusedBodyAux_both nm c bv h1 h2]
      simp [sentinelWrap, count_continue_break, countSs, countStat, countLast,
        countBr, addPair, cleanB, cleanSs, cleanStat, cleanBr, cleanOpt,
        cc_cwbtbB, clean_cwbtbB, hclean]

mutual

theorem clean_visitB (nm : Names) : ∀ b : Block, cleanB (visitB nm b) = true
  | .mk ss last => by
    simp only [visitB, cleanB]
    exact clean_visitSs nm ss

theorem clean_visitSs (nm : Names) : ∀ ss : Stats, cleanSs (visitSs nm ss) = true
  | .nil => rfl
  | .cons s r => by
    simp only [visitSs, cleanSs]
    rw [clean_visitStat nm s, clean_visitSs nm r]
    rfl

theorem clean_visitStat (nm : Names) : ∀ s : Stat, cleanStat (visitStat nm s) = true
  | .emit _ => rfl
  | .localAssign _ _ => rfl
  | .assign _ _ => rfl
  | .doS b => by
    simp only [visitStat, cleanStat]
    exact clean_visitB nm b
  | .ifS brs els => by
    simp only [visitStat, cleanStat]
    rw [clean_visitBr nm brs, clean_visitOpt nm els]
    rfl
  | .whileS c b => by
    simp only [visitStat, cleanStat]
    exact clean_fusedBodyAux nm _ _ (by rw [count_visitB nm b]) (clean_visitB nm b)
  | .repeatS b c => by
    simp only [visitStat, cleanStat]
    exact clean_fusedBodyAux nm _ _ (by rw [count_visitB nm b]) (clean_visitB nm b)
  | .numericFor k b => by
    simp only [visitStat, cleanStat]
    exact clean_fusedBodyAux nm _ _ (by rw [count_visitB nm b]) (clean_visitB nm b)

theorem clean_visitBr (nm : Names) : ∀ brs : Branches, cleanBr (visitBr nm brs) = true
  | .nil => rfl
  | .cons _ b r => by
    simp only [visitBr, cleanBr]
    rw [clean_visitB nm b, clean_visitBr nm r]
    rfl

theorem clean_visitOpt (nm : Names) : ∀ ob : OptBlock, cleanOpt (visitOpt nm ob) = true
  | .noneB => rfl
  | .someB b => by
    simp only [visitOpt, cleanOpt]
    exact clean_visitB nm b

end

mutual

theorem cleanId_visitB (nm : Names) : ∀ b : Block, cleanB b = true → visitB nm b = b
  | .mk ss last => fun h => by
    simp only [cleanB] at h
    simp only [visitB]
    rw [cleanId_visitSs nm ss h]

theorem cleanId_visitSs (nm : Names) : ∀ ss : Stats, cleanSs ss = true → visitSs nm ss = ss
  | .nil => fun _ => rfl
  | .cons s r => fun h => by
    simp only [cleanSs, Bool.and_eq_true] at h
    simp only [visitSs]
    rw [cleanId_visitStat nm s h.1, cleanId_visitSs nm r h.2]

theorem cleanId_visitStat (nm : Names) : ∀ s : Stat, cleanStat s = true → visitStat nm s = s
  | .emit _ => fun _ => rfl
  | .localAssign _ _ => fun _ => rfl
  | .assign _ _ => fun _ => rfl
  | .doS b => fun h => by
    simp only [cleanStat] at h
    simp only [visitStat]
    rw [cleanId_visitB nm b h]
  | .ifS brs els => fun h => by
    simp only [cleanStat, Bool.and_eq_true] at h
    simp only [visitStat]
    rw [cleanId_visitBr nm brs h.1, cleanId_visitOpt nm els h.2]
  | .whileS c b => fun h => by
    simp only [cleanStat, Bool.and_eq_true, beq_iff_eq] at h
    simp only [visitStat]
    rw [fusedBodyAux_zero nm _ _ h.1, cleanId_visitB nm b h.2]
  | .repeatS b c => fun h => by
    simp only [cleanStat, Bool.and_eq_true, beq_iff_eq] at h
    simp only [visitStat]
    rw [fusedBodyAux_zero nm _ _ h.1, cleanId_visitB nm b h.2]
  | .numericFor k b => fun h => by
    simp only [cleanStat, Bool.and_eq_true, beq_iff_eq] at h
    simp only [visitStat]
    rw [fusedBodyAux_zero nm _ _ h.1, cleanId_visitB nm b h.2]

theorem cleanId_visitBr (nm : Names) : ∀ brs : Branches, cleanBr brs = true → visitBr nm brs = brs
  | .nil => fun _ => rfl
  | .cons _ b r => fun h => by
    simp only [cleanBr, Bool.and_eq_true] at h
    simp only [visitBr]
    rw [cleanId_visitB nm b h.1, cleanId_visitBr nm r h.2]

theorem cleanId_visitOpt (nm : Names) : ∀ ob : OptBlock, cleanOpt ob = true → visitOpt nm ob = ob
  | .noneB => fun _ => rfl
  | .someB b => fun h => by
    simp only [cleanOpt] at h
    simp only [visitOpt]
    rw [cleanId_visitB nm b h]

end

mutual

theorem hc_countB : ∀ b : Block, hasContinueB b = false → (count_continue_break b).1 = 0
  | .mk ss last => fun h => by
    simp only [hasContinueB, Bool.or_eq_false_iff] at h
    have h1 : (countLast last).1 = 0 := by
      rcases last with _ | l
      · rfl
      · cases l
        · rfl
        · exact absurd h.1 (by simp)
        · rfl
    have h2 := hc_countSs ss h.2
    simp only [count_continue_break, addPair]
    omega

theorem hc_countSs : ∀ ss : Stats, hasContinueSs ss = false → (countSs ss).1 = 0
  | .nil => fun _ => rfl
  | .cons s r => fun h => by
    simp only [hasContinueSs, Bool.or_eq_false_iff] at h
    have h1 := hc_countStat s h.1
    have h2 := hc_countSs r h.2
    simp only [countSs, addPair]
    omega

theorem hc_countStat : ∀ s : Stat, hasContinueStat s = false → (countStat s).1 = 0
  | .emit _ => fun _ => rfl
  | .localAssign _ _ => fun _ => rfl
  | .assign _ _ => fun _ => rfl
  | .doS b => fun h => hc_countB b h
  | .ifS brs els => fun h => by
    simp only [hasContinueStat, Bool.or_eq_false_iff] at h
    simpa only [countStat] using hc_countBr brs h.1
  | .whileS _ _ => fun _ => rfl
  | .repeatS _ _ => fun _ => rfl
  | .numericFor _ _ => fun _ => rfl

theorem hc_countBr : ∀ brs : Branches, hasContinueBr brs = false → (countBr brs).1 = 0
  | .nil => fun _ => rfl
  | .cons _ b r => fun h => by
    simp only [hasContinueBr, Bool.or_eq_false_iff] at h
    have h1 := hc_countB b h.1
    have h2 := hc_countBr r h.2
    simp only [countBr, addPair]
    omega

end

end RC

namespace RD

theorem find?_isSome_iff_mem (l : List (Nat × Nat)) (k : Nat) :
    (l.find? (fun p => p.1 = k)).isSome ↔ k ∈ l.map Prod.fst := by
  rw [List.find?_isSome]
  constructor
  · rintro ⟨x, hx, hpx⟩
    have hxk : x.1 = k := by simpa using hpx
    exact hxk ▸ List.mem_map_of_mem Prod.fst hx
  · intro hk
    obtain ⟨x, hx, hxk⟩ := List.mem_map.mp hk
    exact ⟨x, hx, by simpa using hxk⟩

theorem map_fst_replace (l : List (Nat × Nat)) (k v : Nat) :
    (l.map (fun p => if p.1 = k then (k, v) else p)).map Prod.fst = l.map Prod.fst := by
  induction l with
  | nil => rfl
  | cons p r ih =>
    simp only [List.map_cons, ih]
    by_cases h : p.1 = k
    · simp [h]
    · simp [h]

theorem map_fst_alInsert (l : List (Nat × Nat)) (k v : Nat) :
    (alInsert l k v).map Prod.fst
      = if k ∈ l.map Prod.fst then l.map Prod.fst else l.map Prod.fst ++ [k] := by
  unfold alInsert
  by_cases h : k ∈ l.map Prod.fst
  · rw [if_pos ((find?_isSome_iff_mem l k).mpr h), if_pos h, map_fst_replace]
  · rw [if_neg (fun hs => h ((find?_isSome_iff_mem l k).mp hs)), if_neg h]
    simp

theorem nodup_alInsert (l : List (Nat × Nat)) (k v : Nat)
    (h : (l.map Prod.fst).Nodup) : ((alInsert l k v).map Prod.fst).Nodup := by
  rw [map_fst_alInsert]
  by_cases hk : k ∈ l.map Prod.fst
  · simpa [hk] using h
  · rw [if_neg hk]
    refine h.append (List.nodup_singleton k) ?_
    intro a ha hak
    have : a = k := by simpa using hak
    exact hk (this ▸ ha)

theorem mem_alInsert (l : List (Nat × Nat)) (k v : Nat) :
    ∀ p ∈ alInsert l k v, p = (k, v) ∨ (p ∈ l ∧ p.1 ≠ k) := by
  intro p hp
  unfold alInsert at hp
  by_cases h : (l.find? (fun q => q.1 = k)).isSome
  · rw [if_pos h] at hp
    obtain ⟨q, hq, hqe⟩ := List.mem_map.mp hp
    by_cases hqk : q.1 = k
    · left
      rw [← hqe]
      simp [hqk]
    · right
      rw [← hqe]
      simp only [if_neg hqk]
      exact ⟨hq, hqk⟩
  · rw [if_neg h] at hp
    rcases List.mem_append.mp hp with h1 | h1
    · refine Or.inr ⟨h1, fun hk => h ?_⟩
      rw [List.find?_isSome]
      exact ⟨p, h1, by simpa using hk⟩
    · left
      simpa using h1

theorem alGet_mem (l : List (Nat × Nat)) (k : Nat) (hk : k ∈ l.map Prod.fst) :
    ∃ pos, alGet l k = some pos ∧ (k, pos) ∈ l := by
  have hs : (l.find? (fun p => p.1 = k)).isSome := (find?_isSome_iff_mem l k).mpr hk
  obtain ⟨q, hq⟩ := Option.isSome_iff_exists.mp hs
  have hq1 : q.1 = k := by simpa using List.find?_some hq
  have hmem : q ∈ l := List.mem_of_find?_eq_some hq
  refine ⟨q.2, ?_, ?_⟩
  · unfold alGet
    rw [hq]
    rfl
  · have : (k, q.2) = q := by
      rw [← hq1]
    exact this ▸ hmem

theorem tableInv_mk (es : List TableEntry) (t : List (Nat × Nat)) (n : Nat)
    (sd : List SideStmt) (rm : List Nat) :
    TableInv es ⟨t, n, sd, rm⟩ ↔
      ((∀ p ∈ t, ∃ ent, es.get? p.2 = some ent ∧
        ((∃ e, ent = TableEntry.value e ∧ p.1 < n) ∨
         (∃ k v q, ent = TableEntry.index k v ∧ evalE k = LuaValue.number q ∧
            q.den = 1 ∧ 0 < q ∧ p.1 + 1 = q.num.toNat)))
       ∧ (t.map Prod.fst).Nodup) := Iff.rfl

theorem stepEntry_inv (es : List TableEntry) (e : TableEntry) (i : Nat) (st : ScanState)
    (hes : es.get? i = some e) (hinv : TableInv es st) : TableInv es (stepEntry e i st) := by
  obtain ⟨hmem, hnd⟩ := hinv
  cases e with
  | field n v => exact ⟨hmem, hnd⟩
  | value ev =>
    have hstep : stepEntry (.value ev) i st =
        ⟨alInsert st.table st.numIndex i, st.numIndex + 1, st.sideStmts,
         st.toRemove ++ (alGet st.table st.numIndex).toList⟩ := by
      simp [stepEntry]
    rw [hstep, tableInv_mk]
    refine ⟨?_, nodup_alInsert _ _ _ hnd⟩
    intro p hp
    rcases mem_alInsert _ _ _ p hp with h | ⟨h, _⟩
    · subst h
      exact ⟨.value ev, hes, Or.inl ⟨ev, rfl, by omega⟩⟩
    · obtain ⟨ent, hent, hcase⟩ := hmem p h
      refine ⟨ent, hent, ?_⟩
      rcases hcase with ⟨e', he', hlt⟩ | hidx
      · exact Or.inl ⟨e', he', by omega⟩
      · exact Or.inr hidx
  | index k v =>
    rcases hek : evalE k with _ | b | q | s | _
    · have hstep : stepEntry (.index k v) i st = st := by simp [stepEntry, hek]
      rw [hstep]
      exact ⟨hmem, hnd⟩
    · have hstep : stepEntry (.index k v) i st = st := by simp [stepEntry, hek]
      rw [hstep]
      exact ⟨hmem, hnd⟩
    · by_cases hq : q.den = 1 ∧ 0 < q
      · by_cases hside : st.sideStmts = []
        · have hstep : stepEntry (.index k v) i st =
              ⟨alInsert st.table (q.num.toNat - 1) i, st.numIndex, st.sideStmts,
               st.toRemove ++ (alGet st.table (q.num.toNat - 1)).toList⟩ := by
            simp [stepEntry, hek, hq, hside]
          rw [hstep, tableInv_mk]
          refine ⟨?_, nodup_alInsert _ _ _ hnd⟩
          intro p hp
          rcases mem_alInsert _ _ _ p hp with h | ⟨h, _⟩
          · subst h
            refine ⟨.index k v, hes, Or.inr ⟨k, v, q, rfl, hek, hq.1, hq.2, ?_⟩⟩
            have hq1 : 0 < q.num := Rat.num_pos.mpr hq.2
            omega
          · exact hmem p h
        · have hstep : stepEntry (.index k v) i st =
              ⟨st.table, st.numIndex,
               st.sideStmts ++ [.assignNum (q.num.toNat - 1 + 1) v], st.toRemove⟩ := by
            simp [stepEntry, hek, hq, hside]
          rw [hstep, tableInv_mk]
          exact ⟨hmem, hnd⟩
      · have hstep : stepEntry (.index k v) i st = st := by simp [stepEntry, hek, hq]
        rw [hstep]
        exact ⟨hmem, hnd⟩
    · have hstep : stepEntry (.index k v) i st = st := by simp [stepEntry, hek]
      rw [hstep]
      exact ⟨hmem, hnd⟩
    · have hstep : stepEntry (.index k v) i st =
          ⟨st.table, st.numIndex, st.sideStmts ++ [.assignExpr k v],
           st.toRemove ++ [i]⟩ := by
        simp [stepEntry, hek]
      rw [hstep, tableInv_mk]
      exact ⟨hmem, hnd⟩

theorem scanAux_inv (es : List TableEntry) :
    ∀ (rest : List TableEntry) (i : Nat) (st : ScanState),
      (∀ j, rest.get? j = es.get? (i + j)) → TableInv es st → TableInv es (scanAux rest i st)
  | [], _, _ => fun _ h => h
  | e :: r, i, st => fun hj hinv => by
    have he : es.get? i = some e := by
      have h0 := hj 0
      simpa using h0.symm
    refine scanAux_inv es r (i + 1) (stepEntry e i st) ?_ (stepEntry_inv es e i st he hinv)
    intro j
    have h1 := hj (j + 1)
    have harith : i + (j + 1) = i + 1 + j := by omega
    simpa [harith] using h1

theorem scan_inv (es : List TableEntry) : TableInv es (scan es) := by
  unfold scan
  apply scanAux_inv es es 0 initState
  · intro j
    simp
  · exact ⟨fun p hp => by simp [initState] at hp, by simp [initState]⟩

theorem stepEntry_sideStmts_nil (e : TableEntry) (i : Nat) (st : ScanState)
    (h : entryConcrete e = true) (hs : st.sideStmts = []) :
    (stepEntry e i st).sideStmts = [] := by
  cases e with
  | value _ => simpa [stepEntry] using hs
  | field _ _ => simpa [stepEntry] using hs
  | index k v =>
    rcases hek : evalE k with _ | b | q | s | _
    · simpa [stepEntry, hek] using hs
    · simpa [stepEntry, hek] using hs
    · by_cases hq : q.den = 1 ∧ 0 < q
      · simp [stepEntry, hek, hq, hs]
      · simpa [stepEntry, hek, hq] using hs
    · simpa [stepEntry, hek] using hs
    · simp [entryConcrete, hek] at h

theorem scanAux_sideStmts_nil :
    ∀ (rest : List TableEntry) (i : Nat) (st : ScanState),
      (∀ e ∈ rest, entryConcrete e = true) → st.sideStmts = [] →
      (scanAux rest i st).sideStmts = []
  | [], _, _ => fun _ hs => hs
  | e :: r, i, st => fun h hs => by
    refine scanAux_sideStmts_nil r (i + 1) (stepEntry e i st)
      (fun e' he' => h e' (by simp [he']))
      (stepEntry_sideStmts_nil e i st (h e (by simp)) hs)

theorem scan_sideStmts_nil (es : List TableEntry)
    (h : ∀ e ∈ es, entryConcrete e = true) : (scan es).sideStmts = [] :=
  scanAux_sideStmts_nil es 0 initState h rfl

theorem emission_cases (es : List TableEntry) (st : ScanState) (hinv : TableInv es st)
    (i : Nat) (hi : i ∈ st.table.map Prod.fst) :
    ∃ ent', (alGet st.table i).bind (rebuildEntry es st.numIndex i) = some ent' ∧
      (((∃ v, ent' = TableEntry.value v) ∧ i ≤ st.numIndex)
       ∨ (∃ k v q, ent' = TableEntry.index k v ∧ evalE k = LuaValue.number q ∧
            q.den = 1 ∧ 0 < q ∧ q.num.toNat = i + 1 ∧ st.numIndex < i)) := by
  obtain ⟨pos, hget, hmem⟩ := alGet_mem st.table i hi
  obtain ⟨ent, hent, hcase⟩ := hinv.1 (i, pos) hmem
  rw [hget]
  simp only [Option.some_bind]
  rcases hcase with ⟨e', he', hlt⟩ | ⟨k, v, q, he', hek, hden, hpos, hiq⟩
  · refine ⟨.value e', ?_, Or.inl ⟨⟨e', rfl⟩, Nat.le_of_lt hlt⟩⟩
    unfold rebuildEntry
    rw [hent, he']
  · by_cases hle : i ≤ st.numIndex
    · refine ⟨.value v, ?_, Or.inl ⟨⟨v, rfl⟩, hle⟩⟩
      unfold rebuildEntry
      rw [hent, he']
      simp [hle]
    · refine ⟨.index k v, ?_,
        Or.inr ⟨k, v, q, rfl, hek, hden, hpos, by omega, by omega⟩⟩
      unfold rebuildEntry
      rw [hent, he']
      simp [hle]

theorem rebuild_explicit (es : List TableEntry) (st : ScanState) (hinv : TableInv es st) :
    ∀ (ks : List Nat) (c : Nat),
      (∀ i ∈ ks, i ∈ st.table.map Prod.fst) →
      (∀ i ∈ ks, st.numIndex < i) →
      List.Pairwise (· < ·) ks →
      (List.Pairwise (· < ·) (resolvedIndicesAux
          (ks.filterMap (fun i => (alGet st.table i).bind (rebuildEntry es st.numIndex i))) c)
       ∧ ∀ x ∈ resolvedIndicesAux
          (ks.filterMap (fun i => (alGet st.table i).bind (rebuildEntry es st.numIndex i))) c,
          ∃ j ∈ ks, x = j + 1) := by
  intro ks
  induction ks with
  | nil =>
    intro c _ _ _
    exact ⟨List.Pairwise.nil, by simp [resolvedIndicesAux]⟩
  | cons i ks' ih =>
    intro c hmem hgt hpw
    obtain ⟨ent', hent', hcl⟩ := emission_cases es st hinv i (hmem i (by simp))
    obtain ⟨hlt, htail⟩ := List.pairwise_cons.mp hpw
    rcases hcl with ⟨⟨v, hv⟩, hle⟩ | ⟨k, v, q, hv, hek, hden, hpos, htn, hni⟩
    · exact absurd hle (by push_neg; exact hgt i (by simp))
    · subst hv
      rw [List.filterMap_cons, hent']
      simp only [resolvedIndicesAux, hek]
      obtain ⟨ihp, ihe⟩ := ih c (fun j hj => hmem j (by simp [hj]))
        (fun j hj => hgt j (by simp [hj])) htail
      constructor
      · rw [List.pairwise_cons]
        refine ⟨?_, ihp⟩
        intro x hx
        obtain ⟨j, hj, hxj⟩ := ihe x hx
        have := hlt j hj
        omega
      · intro x hx
        rcases List.mem_cons.mp hx with h | h
        · exact ⟨i, by simp, by omega⟩
        · obtain ⟨j, hj, hxj⟩ := ihe x h
          exact ⟨j, by simp [hj], hxj⟩

theorem rebuild_chain (es : List TableEntry) (st : ScanState) (hinv : TableInv es st) :
    ∀ (ks : List Nat) (c : Nat),
      (∀ i ∈ ks, i ∈ st.table.map Prod.fst) →
      (∀ i ∈ ks, c ≤ i) →
      List.Pairwise (· < ·) ks →
      (List.Pairwise (· < ·) (resolvedIndicesAux
          (ks.filterMap (fun i => (alGet st.table i).bind (rebuildEntry es st.numIndex i))) c)
       ∧ ∀ x ∈ resolvedIndicesAux
          (ks.filterMap (fun i => (alGet st.table i).bind (rebuildEntry es st.numIndex i))) c,
          c < x) := by
  intro ks
  induction ks with
  | nil =>
    intro c _ _ _
    exact ⟨List.Pairwise.nil, by simp [resolvedIndicesAux]⟩
  | cons i ks' ih =>
    intro c hmem hge hpw
    obtain ⟨ent', hent', hcl⟩ := emission_cases es st hinv i (hmem i (by simp))
    obtain ⟨hlt, htail⟩ := List.pairwise_cons.mp hpw
    have hci : c ≤ i := hge i (by simp)
    rcases hcl with ⟨⟨v, hv⟩, hle⟩ | ⟨k, v, q, hv, hek, hden, hpos, htn, hni⟩
    · subst hv
      rw [List.filterMap_cons, hent']
      simp only [resolvedIndicesAux]
      obtain ⟨ihp, ihe⟩ := ih (c + 1) (fun j hj => hmem j (by simp [hj]))
        (fun j hj => by have := hlt j hj; omega) htail
      constructor
      · rw [List.pairwise_cons]
        exact ⟨fun x hx => ihe x hx, ihp⟩
      · intro x hx
        rcases List.mem_cons.mp hx with h | h
        · omega
        · have := ihe x h
          omega
    · subst hv
      rw [List.filterMap_cons, hent']
      simp only [resolvedIndicesAux, hek]
      obtain ⟨ihp, ihe⟩ := rebuild_explicit es st hinv ks' c
        (fun j hj => hmem j (by simp [hj]))
        (fun j hj => by have := hlt j hj; omega) htail
      constructor
      · rw [List.pairwise_cons]
        refine ⟨?_, ihp⟩
        intro x hx
        obtain ⟨j, hj, hxj⟩ := ihe x hx
        have := hlt j hj
        omega
      · intro x hx
        rcases List.mem_cons.mp hx with h | h
        · omega
        · obtain ⟨j, hj, hxj⟩ := ihe x h
          have := hlt j hj
          omega

theorem sortedKeys_pairwise (st : ScanState) (hnd : (st.table.map Prod.fst).Nodup) :
    List.Pairwise (· < ·) (sortedKeys st) := by
  have hs : (sortedKeys st).Sorted (· ≤ ·) := List.sorted_insertionSort (· ≤ ·) _
  have hnd' : (sortedKeys st).Nodup :=
    ((List.perm_insertionSort (· ≤ ·) (st.table.map Prod.fst)).nodup_iff).mpr hnd
  exact hs.lt_of_le hnd'

theorem rebuild_shape (es : List TableEntry) (st : ScanState) (hinv : TableInv es st) :
    ∀ ent ∈ rebuild es st, goodShape ent := by
  intro ent hent
  unfold rebuild at hent
  obtain ⟨i, hik, hfi⟩ := List.mem_filterMap.mp hent
  have hikeys : i ∈ st.table.map Prod.fst :=
    ((List.perm_insertionSort (· ≤ ·) (st.table.map Prod.fst)).mem_iff).mp hik
  obtain ⟨ent', hent', hcl⟩ := emission_cases es st hinv i hikeys
  have heq : ent' = ent := by
    rw [hent'] at hfi
    exact Option.some.inj hfi
  subst heq
  rcases hcl with ⟨⟨v, hv⟩, _⟩ | ⟨k, v, q, hv, hek, hden, hpos, _, _⟩
  · rw [hv]
    trivial
  · rw [hv]
    exact ⟨q, hek, hden, hpos⟩

/-- The full concrete-keys guarantee of the processing: the literal stays a
literal, every rebuilt entry is positional or positive-integer-keyed, and
the resolved indices are strictly ascending. -/
theorem processTable_concrete (es : List TableEntry)
    (h : ∀ e ∈ es, entryConcrete e = true) :
    processTable es = .tbl (rebuild es (scan es))
    ∧ (∀ ent ∈ rebuild es (scan es), goodShape ent)
    ∧ List.Pairwise (· < ·) (resolvedIndices (rebuild es (scan es))) := by
  have hside := scan_sideStmts_nil es h
  have hinv := scan_inv es
  refine ⟨?_, rebuild_shape es (scan es) hinv, ?_⟩
  · unfold processTable
    simp [hside]
  · unfold resolvedIndices rebuild
    exact (rebuild_chain es (scan es) hinv (sortedKeys (scan es)) 0
      (fun i hi =>
        ((List.perm_insertionSort (· ≤ ·) ((scan es).table.map Prod.fst)).mem_iff).mp hi)
      (fun i _ => Nat.zero_le i)
      (sortedKeys_pairwise _ hinv.2)).1

end RD

namespace CB

theorem convert_allRShift : ∀ e : Expr, allRShift (convertExpr e) = true
  | .num _ => rfl
  | .ident _ => rfl
  | .binary op l r => by
    simp [convertExpr, allRShift, convert_allRShift l, convert_allRShift r]

theorem convert_skeleton : ∀ e : Expr, skeleton (convertExpr e) = skeleton e
  | .num _ => rfl
  | .ident _ => rfl
  | .binary op l r => by
    simp [convertExpr, skeleton, convert_skeleton l, convert_skeleton r]

end CB

namespace CFG

theorem configure_skips_recognized :
    ∀ (pre : Properties) (d : String) (rest : Properties),
      (∀ p ∈ pre, p.1 = "runtime_variable_format" ∧ ∃ s, p.2 = PropValue.stringV s) →
      ∃ d', configureRuntimeVariableFormat (pre ++ rest) d
        = configureRuntimeVariableFormat rest d'
  | [], d, rest => fun _ => ⟨d, rfl⟩
  | (k, v) :: pre', d, rest => fun h => by
    obtain ⟨hk, s, hs⟩ := h (k, v) (List.mem_cons_self _ _)
    simp only at hk hs
    subst hk
    subst hs
    simp only [List.cons_append, configureRuntimeVariableFormat, if_pos rfl, expectString]
    exact configure_skips_recognized pre' s rest (fun p hp => h p (List.mem_cons_of_mem _ hp))

theorem configure_unexpected (pre post : Properties) (k : String) (v : PropValue)
    (d : String)
    (hpre : ∀ p ∈ pre, p.1 = "runtime_variable_format" ∧ ∃ s, p.2 = PropValue.stringV s)
    (hk : k ≠ "runtime_variable_format") :
    configureRuntimeVariableFormat (pre ++ (k, v) :: post) d
      = .error (.unexpectedProperty k) := by
  obtain ⟨d', hd⟩ := configure_skips_recognized pre d ((k, v) :: post) hpre
  rw [hd]
  simp [configureRuntimeVariableFormat, hk]

end CFG

/-!
### Claim theorems
-/

/-- **C1** (code_bug).  The claim: the rewritten loop has an identical
observable side-effect sequence and exit cause, the injected conditional
re-raising a genuine outer break exactly when a real break (not a continue
or a normal fall-through) occurred.  The code violates this: on the loop
body `emit 1; if false then continue elseif false then break elseif false
then break end` (1 continue, 2 breaks, so the continue-sentinel direction is
chosen), a normal fall-through leaves the sentinel false and the injected
`if not cv then break end` breaks the outer loop: a 3-iteration for loop
emits `[1, 1, 1]` before the rewrite and `[1]` after it. -/
theorem remove_continue_equivalence_violated :
    RC.count_continue_break RC.c1Body = (1, 2)
    ∧ RC.sideTrace (RC.execStat 64 [] (.numericFor 3 RC.c1Body)) = some [1, 1, 1]
    ∧ RC.sideTrace (RC.execStat 64 [] (RC.visitStat RC.nm0 (.numericFor 3 RC.c1Body)))
        = some [1]
    ∧ some [1, 1, 1] ≠ some ([1] : List Nat) :=
  ⟨rfl, rfl, rfl, by decide⟩

/-- **C5** (confirmed).  The remove_continue rule is idempotent: applying
the rule's visitor a second time — with any (different) generated sentinel
names — to the output of a first application leaves the tree unchanged. -/
theorem remove_continue_idempotent (nm1 nm2 : RC.Names) (b : RC.Block) :
    RC.visitB nm2 (RC.visitB nm1 b) = RC.visitB nm1 b :=
  RC.cleanId_visitB nm2 (RC.visitB nm1 b) (RC.clean_visitB nm1 b)

/-- **C6** (confirmed).  A loop body with no `continue` terminator reachable
through nested `if`/`do` blocks (continues inside nested loops are not
counted) is left entirely unchanged by `Processor::process`. -/
theorem remove_continue_frame (nm : RC.Names) (b : RC.Block)
    (h : RC.hasContinueB b = false) : RC.process nm b = b :=
  RC.fusedBodyAux_zero nm _ b (RC.hc_countB b h)

/-- Witness for C6: a loop body whose only `continue` sits inside a nested
numeric-for loop is untouched. -/
theorem remove_continue_frame_witness :
    RC.hasContinueB RC.c6Body = false ∧ RC.process RC.nm0 RC.c6Body = RC.c6Body :=
  ⟨rfl, remove_continue_frame RC.nm0 RC.c6Body rfl⟩

/-- **C2** (code_bug).  The claim: for literals with only statically
resolvable keys the rebuilt literal is key-by-key value-equal to the
original.  The code violates this for string-resolvable keys: it rebuilds
the literal exclusively from the positive-integer index map, deleting named
fields and string-keyed entries — `{x = 1, ['x'] = 2}` (the repository's own
test `redeclared_field_and_index`, expecting `{['x'] = 2}`) rewrites to the
empty literal `{}`.  The claim's numeric examples do hold. -/
theorem remove_duplicated_keys_drops_resolvable_entries :
    RD.processTable RD.c2Input = .tbl []
    ∧ RD.evalLiteral RD.c2Input ≠ RD.evalLiteral []
    ∧ RD.processTable RD.c2Example1 = .tbl [.value (.strE "A")]
    ∧ RD.processTable RD.c2Example2
        = .tbl [.value (.numE 1), .value (.numE 2), .value (.strE "A"),
                .value (.strE "B"), .index (.numE 6) (.strE "C"),
                .index (.numE 7) (.strE "D")] :=
  ⟨rfl, by decide, rfl, rfl⟩

/-- **C3** (code_bug).  The claim: the immediately-invoked rewrite evaluates
every key and value exactly once in original left-to-right order.  The code
violates the order: every positional entry goes into the base table literal
even when it appears after an Unknown-keyed entry, so in `{[f()] = 'A', 2}`
the rewritten form evaluates `2` before `f()` while the original evaluates
`f()` first.  The spec's own example `{1, [f()] = 'A'}` does rewrite to the
claimed `local tbl = {1}; tbl[f()] = 'A'; return tbl` shape. -/
theorem remove_duplicated_keys_order_divergence :
    RD.processTable RD.c3Input
        = .iife [.value (.numE 2)] [.assignExpr (.call 0) (.strE "A")]
    ∧ RD.origOrder RD.c3Input = [.call 0, .strE "A", .numE 2]
    ∧ RD.rewrittenOrder (RD.processTable RD.c3Input) = [.numE 2, .call 0, .strE "A"]
    ∧ RD.rewrittenOrder (RD.processTable RD.c3Input) ≠ RD.origOrder RD.c3Input
    ∧ RD.processTable RD.c3SpecExample
        = .iife [.value (.numE 1)] [.assignExpr (.call 0) (.strE "A")] :=
  ⟨rfl, rfl, rfl, by decide, rfl⟩

/-- **C9** (confirmed).  For a table literal whose keys all evaluate to
concrete values, the rule rebuilds a literal containing only positional
entries and explicit entries whose key resolved to a positive integer,
arranged in ascending resolved-index order; entries of every other shape
(named fields, string/boolean/nil keys, non-positive or non-integer numeric
keys) are absent. -/
theorem remove_duplicated_keys_literal_shape (es : List RD.TableEntry)
    (h : ∀ e ∈ es, RD.entryConcrete e = true) :
    RD.processTable es = .tbl (RD.rebuild es (RD.scan es))
    ∧ (∀ ent ∈ RD.rebuild es (RD.scan es), RD.goodShape ent)
    ∧ List.Pairwise (· < ·) (RD.resolvedIndices (RD.rebuild es (RD.scan es))) :=
  RD.processTable_concrete es h

/-- Witness for C9 at a literal mixing positional entries, named fields,
and string/non-integer/non-positive/colliding numeric keys. -/
theorem remove_duplicated_keys_literal_shape_witness :
    (∀ e ∈ RD.c9Input, RD.entryConcrete e = true)
    ∧ (RD.processTable RD.c9Input = .tbl (RD.rebuild RD.c9Input (RD.scan RD.c9Input))
       ∧ (∀ ent ∈ RD.rebuild RD.c9Input (RD.scan RD.c9Input), RD.goodShape ent)
       ∧ List.Pairwise (· < ·)
           (RD.resolvedIndices (RD.rebuild RD.c9Input (RD.scan RD.c9Input)))) :=
  ⟨by decide, remove_duplicated_keys_literal_shape RD.c9Input (by decide)⟩

/-- **C4** (code_bug).  The claim: the rule wraps the loop in a do-block
while leaving all other statements of the enclosing block unchanged.  The
code violates this: `process_block` clears the whole block and keeps only
the built do-statement, deleting every sibling statement (here both `emit`
statements around the loop).  Multi-expression generic-for loops are indeed
untouched. -/
theorem remove_generalized_iteration_deletes_siblings :
    RG.process_block RG.nms0 RG.c4Input = [RG.c4ExpectedDo]
    ∧ (RG.process_block RG.nms0 RG.c4Input).length = 1
    ∧ RG.c4Input.length = 3
    ∧ RG.process_block RG.nms0 RG.c4Multi = RG.c4Multi :=
  ⟨rfl, rfl, rfl, rfl⟩

/-- **C7** (confirmed).  Configuring a rule from a property mapping with an
unrecognized key fails with a configuration error naming exactly that key,
before the rule's apply step runs, so the tree is returned unmutated; the
redeclared-key rule rejects every non-empty property mapping, naming its
first key. -/
theorem rule_configuration_rejects_unknown_keys
    (pre post : CFG.Properties) (k : String) (v : CFG.PropValue) (d : String)
    (b : RC.Block) (k2 : String) (v2 : CFG.PropValue) (r2 : CFG.Properties)
    (t2 : RD.TExpr)
    (hpre : ∀ p ∈ pre, p.1 = "runtime_variable_format" ∧ ∃ s, p.2 = CFG.PropValue.stringV s)
    (hk : k ≠ "runtime_variable_format") :
    CFG.runConfiguredRule (fun p => CFG.configureRuntimeVariableFormat p d)
        RV.applyRemoveContinue (pre ++ (k, v) :: post) b
      = (.error (.unexpectedProperty k), b)
    ∧ CFG.runConfiguredRule (fun p => CFG.removeDuplicatedKeysConfigure p)
        (fun _ e => RD.processExpr e) ((k2, v2) :: r2) t2
      = (.error (.unexpectedProperty k2), t2) := by
  constructor
  · simp only [CFG.runConfiguredRule, CFG.configure_unexpected pre post k v d hpre hk]
  · rfl

/-- Witness for C7: one recognized key followed by the unknown key `prop`
on `remove_continue`, and a one-key mapping on `remove_duplicated_keys`. -/
theorem rule_configuration_rejects_unknown_keys_witness :
    ((∀ p ∈ ([("runtime_variable_format", CFG.PropValue.stringV "{name}")] : CFG.Properties),
        p.1 = "runtime_variable_format" ∧ ∃ s, p.2 = CFG.PropValue.stringV s)
     ∧ ("prop" : String) ≠ "runtime_variable_format")
    ∧ (CFG.runConfiguredRule
          (fun p => CFG.configureRuntimeVariableFormat p RV.defaultRemoveContinueFormat)
          RV.applyRemoveContinue
          ([("runtime_variable_format", CFG.PropValue.stringV "{name}")]
            ++ ("prop", CFG.PropValue.boolV false) :: []) (RC.Block.mk .nil none)
        = (.error (.unexpectedProperty "prop"), RC.Block.mk .nil none)
       ∧ CFG.runConfiguredRule (fun p => CFG.removeDuplicatedKeysConfigure p)
          (fun _ e => RD.processExpr e) (("prop", CFG.PropValue.stringV "x") :: [])
          (RD.TExpr.tbl [])
        = (.error (.unexpectedProperty "prop"), RD.TExpr.tbl [])) :=
  ⟨⟨fun p hp => by
      simp only [List.mem_singleton] at hp
      subst hp
      exact ⟨rfl, "{name}", rfl⟩,
    by decide⟩,
   rule_configuration_rejects_unknown_keys
     [("runtime_variable_format", CFG.PropValue.stringV "{name}")] []
     "prop" (CFG.PropValue.boolV false) RV.defaultRemoveContinueFormat
     (RC.Block.mk .nil none) "prop" (CFG.PropValue.stringV "x") [] (RD.TExpr.tbl [])
     (fun p hp => by
       simp only [List.mem_singleton] at hp
       subst hp
       exact ⟨rfl, "{name}", rfl⟩)
     (by decide)⟩

/-- **C8** (confirmed).  Helper-name generation is deterministic: the two
sentinel names `remove_continue` derives are a pure function of the
configured format and the serialized bytes of the processed block — trees
with equal serialized content yield byte-identical names on any two runs. -/
theorem runtime_variable_names_deterministic (fmt : String) (b1 b2 : RC.Block)
    (h : RV.encodeB b1 = RV.encodeB b2) :
    RV.removeContinueNames fmt b1 = RV.removeContinueNames fmt b2 := by
  unfold RV.removeContinueNames
  rw [h]

/-- Witness for C8 at the default format and a concrete block. -/
theorem runtime_variable_names_deterministic_witness :
    RV.encodeB RC.c1Body = RV.encodeB RC.c1Body
    ∧ RV.removeContinueNames RV.defaultRemoveContinueFormat RC.c1Body
        = RV.removeContinueNames RV.defaultRemoveContinueFormat RC.c1Body :=
  ⟨rfl, runtime_variable_names_deterministic RV.defaultRemoveContinueFormat
    RC.c1Body RC.c1Body rfl⟩

/-- **C10** counterexample (corrected).  The claim says the rule keeps the
left and right operand expressions unchanged; on a nested binary expression
`(1 + 2) + 3` the left operand's own operator is rewritten too, so the
result is not `(1 + 2) >> 3`. -/
theorem convert_bit32_operands_changed :
    CB.convertExpr (.binary .plus (.binary .plus (.num 1) (.num 2)) (.num 3))
      ≠ .binary .doubleGreaterThan (.binary .plus (.num 1) (.num 2)) (.num 3) := by
  decide

/-- **C10** (amended).  Applying the convert_bit32 rule replaces the
operator of every binary expression in the tree with `>>` while preserving
the operator-erased skeleton — operand expressions are themselves
recursively processed, hence literally unchanged only when they contain no
binary subexpression. -/
theorem convert_bit32_all_rshift (e : CB.Expr) :
    CB.allRShift (CB.convertExpr e) = true
    ∧ CB.skeleton (CB.convertExpr e) = CB.skeleton e :=
  ⟨CB.convert_allRShift e, CB.convert_skeleton e⟩
